import Mathlib

/-!
Shallow embedding of the UltraShip document-intelligence core
(`backend/document_processor.py`, `ultra-doc-intelligence/backend/extractor.py`,
`ultra-doc-intelligence/backend/rag_engine.py`) and proofs about its
chunking, retrieval, confidence and structured-extraction behaviour.

Python strings are modelled as `List Char` (all inputs of interest are
ASCII), Python floats as `ℚ` (the arithmetic used by the code is exact on
the values involved), Python `None`/`str`/numeric values as the inductive
`Val`, and Python dicts holding extraction records as ordered association
lists `List (String × Val)`.  External capabilities (the embedding model,
the FAISS nearest-neighbour search, the Groq chat completion, the parsed
JSON object recovered from a model response) are passed in as oracle
parameters, exactly at the call sites where the Python code consults them.
-/

namespace UltraShip

/-! ## Python string primitives -/

/-- Python whitespace for `str.split()` / `str.strip()`:
space, tab, newline, carriage return, form feed, vertical tab. -/
def isWS (c : Char) : Bool :=
  c = ' ' || c = '\t' || c = '\n' || c = '\r' || c = '\x0c' || c = '\x0b'

/-- `str.lstrip()` on a character list. -/
def lstripWS (l : List Char) : List Char := l.dropWhile isWS

/-- `str.strip()` (no argument): drop whitespace from both ends. -/
def pstrip (l : List Char) : List Char :=
  ((l.dropWhile isWS).reverse.dropWhile isWS).reverse

/-- `str.strip(chars)`: drop characters of the set `p` from both ends. -/
def pstripChars (p : Char → Bool) (l : List Char) : List Char :=
  ((l.dropWhile p).reverse.dropWhile p).reverse

/-- Helper for `str.split()` (no argument): accumulate the current word
(in reverse) and split on whitespace runs, producing no empty words. -/
def wsplitAux (cur : List Char) : List Char → List (List Char)
  | [] => if cur.isEmpty then [] else [cur.reverse]
  | c :: t =>
    if isWS c then
      if cur.isEmpty then wsplitAux [] t else cur.reverse :: wsplitAux [] t
    else wsplitAux (c :: cur) t

/-- Python `str.split()` (no argument). -/
def pywords (l : List Char) : List (List Char) := wsplitAux [] l

/-- Python `len(s.split())`: the word count of a string. -/
def wcount (l : List Char) : Nat := (pywords l).length

/-- Python `str.split(". ")`: split on each leftmost occurrence of the
two-character separator `". "`.  `acc` holds the current token reversed. -/
def splitPS (acc : List Char) : List Char → List (List Char)
  | [] => [acc.reverse]
  | [c] => [(c :: acc).reverse]
  | c :: d :: t =>
    if c = '.' ∧ d = ' ' then acc.reverse :: splitPS [] t
    else splitPS (c :: acc) (d :: t)

/-- Python `' '.join(words)`. -/
def joinSpace : List (List Char) → List Char
  | [] => []
  | [w] => w
  | w :: ws => w ++ ' ' :: joinSpace ws

/-- Python `sep.join(strings)` for a string separator. -/
def joinWith (sep : List Char) : List (List Char) → List Char
  | [] => []
  | [w] => w
  | w :: ws => w ++ sep ++ joinWith sep ws

/-- Python `str.lower()` restricted to ASCII (all document text in scope
is ASCII). -/
def pylower (l : List Char) : List Char := l.map Char.toLower

/-- Python `needle in haystack` substring test. -/
def isSubstr (needle haystack : List Char) : Bool :=
  (List.range (haystack.length + 1)).any
    fun i => (haystack.drop i).take needle.length = needle

/-! ## Word-count machinery (used to reason about the chunker's
greedy size accounting) -/

/-- Word-start counter: `wcA p l` counts word starts in `l`, where `p`
records whether the character just before `l` was a non-whitespace
character. `wcA false l = wcount l`. -/
def wcA (p : Bool) : List Char → Nat
  | [] => 0
  | c :: t => if isWS c then wcA false t else (if p then 0 else 1) + wcA true t

/-- Whether the last character before the continuation is non-whitespace,
starting from state `p`. -/
def endW (p : Bool) : List Char → Bool
  | [] => p
  | c :: t => endW (!isWS c) t

theorem wcA_append (a : List Char) : ∀ (p : Bool) (b : List Char),
    wcA p (a ++ b) = wcA p a + wcA (endW p a) b := by
  induction a with
  | nil => intro p b; simp [wcA, endW]
  | cons c t ih =>
    intro p b
    by_cases h : isWS c
    · simp [wcA, endW, h, ih false b]
    · simp [wcA, endW, h, ih true b, Nat.add_assoc]

theorem wsplitAux_length (l : List Char) : ∀ cur : List Char,
    (wsplitAux cur l).length = wcA (!cur.isEmpty) l + (if cur.isEmpty then 0 else 1) := by
  induction l with
  | nil =>
    intro cur
    by_cases h : cur.isEmpty <;> simp [wsplitAux, wcA, h]
  | cons c t ih =>
    intro cur
    by_cases hw : isWS c
    · by_cases h : cur.isEmpty <;>
        simp [wsplitAux, wcA, hw, h, ih [], List.isEmpty_nil]
    · by_cases h : cur.isEmpty <;>
        simp [wsplitAux, wcA, hw, h, ih (c :: cur), List.isEmpty_cons, Nat.add_comm]

theorem wcount_eq_wcA (l : List Char) : wcount l = wcA false l := by
  simpa [wcount, pywords, List.isEmpty_nil] using wsplitAux_length l []

/-! ## DocumentProcessor.clean_text and DocumentProcessor.chunk_text -/

/-- Python `str.split('\n')` (keeps empty pieces); `acc` holds the current
piece reversed. -/
def splitNL (acc : List Char) : List Char → List (List Char)
  | [] => [acc.reverse]
  | c :: t => if c = '\n' then acc.reverse :: splitNL [] t else splitNL (c :: acc) t

/-- `DocumentProcessor.clean_text`: strip every line, drop blank lines,
re-join with newlines; empty input maps to empty output. -/
def clean_text (text : List Char) : List Char :=
  if text.isEmpty then []
  else joinWith ['\n'] (((splitNL [] text).map pstrip).filter fun l => !l.isEmpty)

/-- `text.replace('\n', ' ')` as performed at the top of `chunk_text`. -/
def flattenNL (text : List Char) : List Char :=
  text.map fun c => if c = '\n' then ' ' else c

/-- `sentence.strip() + ". "` as built for each split unit in `chunk_text`. -/
def sentenceOf (u : List Char) : List Char := pstrip u ++ '.' :: ' ' :: []

/-- Loop state of `chunk_text`: closed chunks, the accumulating chunk, and
its tracked word count. -/
structure ChunkState where
  chunks : List (List Char)
  cur : List Char
  size : Nat
deriving Repr, DecidableEq

/-- One iteration of the `for sentence in sentences` loop of `chunk_text`. -/
def chunkStep (chunkSize overlap : Nat) (st : ChunkState) (u : List Char) : ChunkState :=
  let s := sentenceOf u
  let ssize := wcount s
  if st.size + ssize ≤ chunkSize then
    ⟨st.chunks, st.cur ++ s, st.size + ssize⟩
  else
    let chunks := if st.cur.isEmpty then st.chunks else st.chunks ++ [pstrip st.cur]
    let ws := pywords st.cur
    let ow := if ws.length > overlap then ws.drop (ws.length - overlap) else ws
    let cur := joinSpace ow ++ ' ' :: s
    ⟨chunks, cur, wcount cur⟩

/-- `DocumentProcessor.chunk_text(text, chunk_size=500, overlap=100)`:
flatten newlines, split into sentence units on `". "`, greedily pack units
into chunks by word count, seed each new chunk with the word-overlap tail
of the accumulated chunk, append the trailing chunk, drop empty chunks. -/
def chunk_text (text : List Char) (chunkSize : Nat := 500) (overlap : Nat := 100) :
    List (List Char) :=
  if text.isEmpty then []
  else
    let sentences := splitPS [] (flattenNL text)
    let st := sentences.foldl (chunkStep chunkSize overlap) ⟨[], [], 0⟩
    let chunks := if st.cur.isEmpty then st.chunks else st.chunks ++ [pstrip st.cur]
    chunks.filter fun c => !c.isEmpty

/-! ## Lemmas about words, stripping and the sentence split,
leading to the single-chunk property of `chunk_text` -/

theorem wcA_all_ws {m : List Char} (h : ∀ c ∈ m, isWS c) : ∀ p, wcA p m = 0 := by
  induction m with
  | nil => intro p; rfl
  | cons c t ih =>
    intro p
    have hc : isWS c := h c (by simp)
    simp [wcA, hc, ih fun x hx => h x (by simp [hx])]

theorem endW_all_ws {m : List Char} (h : ∀ c ∈ m, isWS c) : endW false m = false := by
  induction m with
  | nil => rfl
  | cons c t ih =>
    have hc : isWS c := h c (by simp)
    simp [endW, hc, ih fun x hx => h x (by simp [hx])]

theorem endW_append (a : List Char) : ∀ (p : Bool) (b : List Char),
    endW p (a ++ b) = endW (endW p a) b := by
  induction a with
  | nil => intro p b; rfl
  | cons c t ih => intro p b; simp [endW, ih]

theorem wcA_dropWhile_ws (l : List Char) :
    wcA false (l.dropWhile isWS) = wcA false l := by
  induction l with
  | nil => rfl
  | cons c t ih =>
    by_cases h : isWS c
    · simp [List.dropWhile_cons_of_pos h, wcA, h, ih]
    · simp [List.dropWhile_cons_of_neg h]

theorem dropWhile_cons_head {p : Char → Bool} :
    ∀ {l : List Char} {c : Char} {rest : List Char},
      l.dropWhile p = c :: rest → p c = false := by
  intro l
  induction l with
  | nil => intro c rest h; simp [List.dropWhile] at h
  | cons a t ih =>
    intro c rest h
    by_cases hp : p a
    · rw [List.dropWhile_cons_of_pos hp] at h; exact ih h
    · rw [List.dropWhile_cons_of_neg hp] at h
      cases h
      simpa using hp

theorem mem_dropWhile_of_not {p : Char → Bool} {c : Char} (hc : p c = false) :
    ∀ {l : List Char}, c ∈ l → c ∈ l.dropWhile p := by
  intro l
  induction l with
  | nil => intro h; simp at h
  | cons a t ih =>
    intro h
    by_cases hp : p a
    · rw [List.dropWhile_cons_of_pos hp]
      rcases List.mem_cons.mp h with rfl | hmem
      · simp [hp] at hc
      · exact ih hmem
    · rwa [List.dropWhile_cons_of_neg hp]

theorem mem_pstrip_of_not {c : Char} (hc : isWS c = false) {l : List Char}
    (h : c ∈ l) : c ∈ pstrip l := by
  unfold pstrip
  rw [List.mem_reverse]
  exact mem_dropWhile_of_not hc (by
    rw [List.mem_reverse]
    exact mem_dropWhile_of_not hc h)

theorem pstrip_decomp (l : List Char) :
    l.dropWhile isWS = pstrip l ++ ((l.dropWhile isWS).reverse.takeWhile isWS).reverse := by
  conv_lhs => rw [← List.reverse_reverse (l.dropWhile isWS),
    ← List.takeWhile_append_dropWhile (p := isWS) (l := (l.dropWhile isWS).reverse)]
  rw [List.reverse_append]
  rfl

theorem wcA_pstrip (l : List Char) : wcA false (pstrip l) = wcA false l := by
  have hd := wcA_dropWhile_ws l
  rw [pstrip_decomp l, wcA_append] at hd
  have h0 : wcA (endW false (pstrip l))
      (((l.dropWhile isWS).reverse.takeWhile isWS).reverse) = 0 :=
    wcA_all_ws (fun c hcm => List.mem_takeWhile_imp (List.mem_reverse.mp hcm)) _
  omega

theorem all_ws_of_pstrip_nil {l : List Char} (h : pstrip l = []) :
    ∀ c ∈ l, isWS c := by
  intro c hcm
  by_contra hcw
  have hw : isWS c = false := by simpa using hcw
  have := mem_pstrip_of_not hw hcm
  rw [h] at this
  simp at this

theorem endW_pstrip_true {l : List Char} (h : pstrip l ≠ []) :
    ∀ p, endW p (pstrip l) = true := by
  intro p
  rcases hx : (l.dropWhile isWS).reverse.dropWhile isWS with _ | ⟨c, rest⟩
  · exact absurd (by simp [pstrip, hx]) h
  · have hc : isWS c = false := dropWhile_cons_head hx
    have hps : pstrip l = rest.reverse ++ [c] := by simp [pstrip, hx]
    rw [hps, endW_append]
    simp [endW, hc]

/-- Word count of `sentence.strip() + ". "` never exceeds the word count of
the raw unit, plus one extra word when the unit does not end in a
non-whitespace character (the appended `"."` then stands alone). -/
theorem wcount_sentenceOf_le (u : List Char) :
    wcount (sentenceOf u) ≤ wcA false u + (if endW false u then 0 else 1) := by
  rw [wcount_eq_wcA, sentenceOf, wcA_append]
  by_cases h : pstrip u = []
  · have hall := all_ws_of_pstrip_nil h
    have h1 : wcA false u = 0 := wcA_all_ws hall false
    have h2 : endW false u = false := endW_all_ws hall
    rw [h, h1, h2]
    decide
  · rw [wcA_pstrip, endW_pstrip_true h]
    have : wcA true ('.' :: ' ' :: []) = 0 := by decide
    rw [this]
    split <;> omega

/-- The sentence sizes accumulated by `chunk_text` sum to at most the word
count of the text being split, plus one. -/
theorem splitPS_sum_le : ∀ (n : Nat) (l : List Char), l.length ≤ n → ∀ acc : List Char,
    ((splitPS acc l).map fun u => wcount (sentenceOf u)).sum
      ≤ wcA false (acc.reverse ++ l) + 1 := by
  intro n
  induction n with
  | zero =>
    intro l hl acc
    have hnil : l = [] := List.length_eq_zero.mp (Nat.le_zero.mp hl)
    subst hnil
    have := wcount_sentenceOf_le acc.reverse
    simp only [splitPS, List.map_cons, List.map_nil, List.sum_cons, List.sum_nil,
      List.append_nil]
    split at this <;> omega
  | succ n ih =>
    intro l hl acc
    match l with
    | [] =>
      have := wcount_sentenceOf_le acc.reverse
      simp only [splitPS, List.map_cons, List.map_nil, List.sum_cons, List.sum_nil,
        List.append_nil]
      split at this <;> omega
    | [c] =>
      have := wcount_sentenceOf_le (acc.reverse ++ [c])
      simp only [splitPS, List.reverse_cons, List.map_cons, List.map_nil,
        List.sum_cons, List.sum_nil]
      split at this <;> omega
    | c :: d :: t =>
      by_cases hc : c = '.' ∧ d = ' '
      · obtain ⟨rfl, rfl⟩ := hc
        rw [show splitPS acc ('.' :: ' ' :: t) = acc.reverse :: splitPS [] t by
          simp [splitPS]]
        have hrec := ih t (by simp at hl; omega) []
        simp only [List.reverse_nil, List.nil_append] at hrec
        have hsent := wcount_sentenceOf_le acc.reverse
        have happ : wcA false (acc.reverse ++ '.' :: ' ' :: t)
            = wcA false acc.reverse
              + wcA (endW false acc.reverse) ('.' :: ' ' :: t) := wcA_append ..
        have hdot : ∀ q : Bool, wcA q ('.' :: ' ' :: t)
            = (if q then 0 else 1) + wcA false t := by
          intro q; rcases q <;> simp [wcA, isWS]
        simp only [List.map_cons, List.sum_cons, happ, hdot]
        omega
      · rw [show splitPS acc (c :: d :: t) = splitPS (c :: acc) (d :: t) by
          simp [splitPS, hc]]
        have := ih (d :: t) (by simp at hl ⊢; omega) (c :: acc)
        simpa using this

/-- When every sentence fits (their sizes never overflow the budget), the
`chunk_text` loop keeps everything in the accumulating chunk. -/
theorem chunkLoop_all_fit (chunkSize overlap : Nat) :
    ∀ (sents : List (List Char)) (cur : List Char) (sz : Nat),
      sz + (sents.map fun u => wcount (sentenceOf u)).sum ≤ chunkSize →
      sents.foldl (chunkStep chunkSize overlap) ⟨[], cur, sz⟩
        = ⟨[], cur ++ (sents.map sentenceOf).flatten,
            sz + (sents.map fun u => wcount (sentenceOf u)).sum⟩ := by
  intro sents
  induction sents with
  | nil => intro cur sz h; simp
  | cons u rest ih =>
    intro cur sz h
    simp only [List.map_cons, List.sum_cons] at h
    have hfit : sz + wcount (sentenceOf u) ≤ chunkSize := by omega
    have hstep : chunkStep chunkSize overlap ⟨[], cur, sz⟩ u
        = ⟨[], cur ++ sentenceOf u, sz + wcount (sentenceOf u)⟩ := by
      simp [chunkStep, hfit]
    rw [List.foldl_cons, hstep, ih (cur ++ sentenceOf u) (sz + wcount (sentenceOf u))
      (by omega)]
    simp [List.append_assoc]
    omega

theorem wcA_flattenNL (l : List Char) : ∀ p, wcA p (flattenNL l) = wcA p l := by
  induction l with
  | nil => intro p; rfl
  | cons c t ih =>
    intro p
    have hws : isWS (if c = '\n' then ' ' else c) = isWS c := by
      by_cases h : c = '\n' <;> simp [h, isWS]
    simp only [flattenNL, List.map_cons, wcA, hws]
    by_cases hw : isWS c <;> simp only [hw, if_true, if_false] <;>
      rw [show flattenNL t = t.map fun c => if c = '\n' then ' ' else c from rfl] at ih <;>
      simp [ih]

theorem dot_mem_sentenceOf (u : List Char) : '.' ∈ sentenceOf u := by
  simp [sentenceOf]

theorem splitPS_ne_nil : ∀ (n : Nat) (l : List Char), l.length ≤ n →
    ∀ acc, splitPS acc l ≠ [] := by
  intro n
  induction n with
  | zero =>
    intro l hl acc
    have hnil : l = [] := List.length_eq_zero.mp (Nat.le_zero.mp hl)
    subst hnil
    simp [splitPS]
  | succ n ih =>
    intro l hl acc
    match l with
    | [] => simp [splitPS]
    | [c] => simp [splitPS]
    | c :: d :: t =>
      by_cases hc : c = '.' ∧ d = ' '
      · obtain ⟨rfl, rfl⟩ := hc; simp [splitPS]
      · rw [show splitPS acc (c :: d :: t) = splitPS (c :: acc) (d :: t) by
          simp [splitPS, hc]]
        exact ih (d :: t) (by simp at hl ⊢; omega) (c :: acc)

/-- C2 (amended): when the text is nonempty and its word count is below
the chunk size 500, `chunk_text` returns exactly one chunk, and that chunk
is the concatenation of the trimmed sentence units, each suffixed with
`". "`, finally trimmed — NOT the (cleaned) input text itself as the spec
claims: the join re-appends `". "` even after the final sentence, so a
text that does not end in `". "` comes back altered. -/
theorem chunk_text_single_chunk (text : List Char) (h1 : text ≠ [])
    (h2 : wcount text < 500) :
    chunk_text text 500 100
      = [pstrip (((splitPS [] (flattenNL text)).map sentenceOf).flatten)] := by
  have hsum : (((splitPS [] (flattenNL text)).map fun u => wcount (sentenceOf u)).sum)
      ≤ 500 := by
    have := splitPS_sum_le (flattenNL text).length (flattenNL text) le_rfl []
    simp only [List.reverse_nil, List.nil_append] at this
    rw [wcA_flattenNL] at this
    rw [wcount_eq_wcA] at h2
    omega
  have hloop := chunkLoop_all_fit 500 100 (splitPS [] (flattenNL text)) [] 0
    (by simpa using hsum)
  have hdot : '.' ∈ ((splitPS [] (flattenNL text)).map sentenceOf).flatten := by
    rcases hsp : splitPS [] (flattenNL text) with _ | ⟨u, us⟩
    · exact absurd hsp (splitPS_ne_nil _ _ le_rfl [])
    · simp only [List.map_cons, List.flatten_cons, List.mem_append]
      exact Or.inl (dot_mem_sentenceOf u)
  have hcur : (((splitPS [] (flattenNL text)).map sentenceOf).flatten).isEmpty = false := by
    rcases hfl : ((splitPS [] (flattenNL text)).map sentenceOf).flatten with _ | _
    · rw [hfl] at hdot; simp at hdot
    · rfl
  have hstrip : (pstrip (((splitPS [] (flattenNL text)).map sentenceOf).flatten)).isEmpty
      = false := by
    have hm := mem_pstrip_of_not (by decide : isWS '.' = false) hdot
    rcases hfl : pstrip (((splitPS [] (flattenNL text)).map sentenceOf).flatten) with _ | _
    · rw [hfl] at hm; simp at hm
    · rfl
  have hie : text.isEmpty = false := by
    rcases text with _ | _
    · exact absurd rfl h1
    · rfl
  simp only [chunk_text, hie, Bool.false_eq_true, if_false, hloop]
  simp [hcur, hstrip]

/-! ## DocumentProcessor.load_document

The FAISS index object is never inspected by the behaviour under study
(searches go through an oracle), so it is modelled as an opaque token.
Disk residency plus readability of the two blobs (`{id}.index` and
`{id}_chunks.pkl`) is modelled by two `Option`-valued maps: `none` stands
for a missing or non-deserializable file (the code wraps the disk-read
branch in `try/except` and converts failures to `None`). -/

/-- Opaque stand-in for a deserialized FAISS index object. -/
abbrev FaissIndex := Nat

/-- One entry of `self.documents`: the `'index'` key may be absent
(`index? = none`), mirroring the `'index' not in doc` check in
`load_document`; irrelevant metadata keys (filename, paths) are omitted. -/
structure DocEntry where
  index? : Option FaissIndex
  chunks : List String
deriving Repr, DecidableEq

/-- Process state of `DocumentProcessor`: the in-memory `self.documents`
map plus the durable-storage contents addressed by document id. -/
structure Store where
  documents : List (String × DocEntry)
  diskIndex : String → Option FaissIndex
  diskChunks : String → Option (List String)

/-- Python dict lookup `m[k]` / `k in m` on an ordered association list. -/
def alistGet (m : List (String × DocEntry)) (k : String) : Option DocEntry :=
  (m.find? fun e => e.1 = k).map Prod.snd

/-- Python dict assignment `m[k] = v` (update in place, else append). -/
def alistSet (m : List (String × DocEntry)) (k : String) (v : DocEntry) :
    List (String × DocEntry) :=
  if m.any fun e => e.1 = k then m.map fun e => if e.1 = k then (k, v) else e
  else m ++ [(k, v)]

/-- `DocumentProcessor.load_document(file_id)`: memory first (patching a
missing index from disk in place when the blob is readable), then
rehydration from disk caching into memory, else `None`. -/
def load_document (st : Store) (fid : String) : Option DocEntry × Store :=
  match alistGet st.documents fid with
  | some doc =>
    match doc.index? with
    | none =>
      match st.diskIndex fid with
      | some idx =>
        let doc2 : DocEntry := { doc with index? := some idx }
        (some doc2, { st with documents := alistSet st.documents fid doc2 })
      | none => (some doc, st)
    | some _ => (some doc, st)
  | none =>
    match st.diskIndex fid, st.diskChunks fid with
    | some idx, some chunks =>
      let doc : DocEntry := ⟨some idx, chunks⟩
      (some doc, { st with documents := alistSet st.documents fid doc })
    | _, _ => (none, st)

/-! ## RAGEngine

`retrieve_relevant_chunks` consults the FAISS `index.search` through the
oracle `searchOut` (the `(distance, index)` pairs FAISS returned, in
order); `generate_answer` consults the Groq chat completion through the
oracle `llm` (`some content` = the model answered with `content`, `none` =
the API call raised and the keyword fallback runs).  The second component
of `generate_answer`'s result records whether the completion capability
was invoked. -/

/-- Python list subscription `l[i]` including negative indexing;
`none` models an `IndexError`. -/
def pyGet (l : List String) (i : ℤ) : Option String :=
  if 0 ≤ i then l.get? i.toNat
  else if -(l.length : ℤ) ≤ i then l.get? (l.length - (-i).toNat)
  else none

/-- `RAGEngine.retrieve_relevant_chunks(query, file_id, top_k)`: load the
document, search the index, keep `(chunk, 1/(1+distance), index)` for every
returned position with `idx < len(chunks)`.  The outer `Option` is `none`
when the Python would raise (`doc['index']` missing, or a subscript error
on a position below `-len(chunks)`). -/
def retrieveStep (chunks : List String)
    (acc : Option (List (String × ℚ × ℤ))) (p : ℚ × ℤ) :
    Option (List (String × ℚ × ℤ)) :=
  match acc with
  | none => none
  | some rs =>
    if p.2 < (chunks.length : ℤ) then
      match pyGet chunks p.2 with
      | some c => some (rs ++ [(c, 1 / (1 + p.1), p.2)])
      | none => none
    else some rs

def retrieve_relevant_chunks (st : Store) (query : String) (fid : String)
    (searchOut : List (ℚ × ℤ)) : Option (List (String × ℚ × ℤ)) × Store :=
  match load_document st fid with
  | (none, st2) => (some [], st2)
  | (some doc, st2) =>
    match doc.index? with
    | none => (none, st2)
    | some _ => (searchOut.foldl (retrieveStep doc.chunks) (some []), st2)

/-- Lowercase word set of a string, as built by `set(s.lower().split())`. -/
def wordSet (s : String) : Finset String :=
  ((pywords (pylower s.data)).map List.asString).toFinset

/-- The post-generation guardrail test:
`"not found" in answer.lower() or "cannot answer" in answer.lower()`. -/
def hasNotFound (s : String) : Bool :=
  isSubstr "not found".data (pylower s.data) ||
    isSubstr "cannot answer".data (pylower s.data)

/-- `RAGEngine.extract_answer_from_context(query, context)`: keep sentences
containing any lowercase query keyword as a substring, return the first two
re-joined, else the fixed not-found sentence. -/
def extract_answer_from_context (query context : String) : String :=
  let sentences := splitPS [] context.data
  let keywords := pywords (pylower query.data)
  let relevant := sentences.filter fun s => keywords.any fun k => isSubstr k (pylower s)
  if relevant.isEmpty then "Not found in document."
  else (joinWith ('.' :: ' ' :: []) (relevant.take 2)).asString ++ "."

/-- The weighted three-factor combination computed by
`RAGEngine.calculate_confidence` before its internal guardrail and clamp:
`0.5 * similarity + 0.3 * coverage + 0.2 * agreement`. -/
def composite_confidence (answer : String) (chunks : List (String × ℚ × ℤ)) : ℚ :=
  match chunks with
  | [] => 0
  | (c0, s0, _) :: rest =>
    let aw := wordSet answer
    let cw := wordSet c0
    let coverage : ℚ := if aw.card ≠ 0 then ((aw ∩ cw).card : ℚ) / aw.card else 0
    let agreement : ℚ :=
      match rest with
      | [] => 1/2
      | (c1, _, _) :: _ =>
        let w1 := wordSet c0
        let w2 := wordSet c1
        if w1.card ≠ 0 ∧ w2.card ≠ 0 then ((w1 ∩ w2).card : ℚ) / ((w1 ∪ w2).card : ℚ)
        else 1/2
    (1/2) * s0 + (3/10) * coverage + (1/5) * agreement

/-- `RAGEngine.calculate_confidence(answer, context_chunks, query)`:
the weighted combination, reduced by the not-found guardrail, clamped to
`[0, 1]`.  The `query` argument is accepted and unused, as in the source. -/
def calculate_confidence (answer : String) (chunks : List (String × ℚ × ℤ))
    (query : String) : ℚ :=
  match chunks with
  | [] => 0
  | _ :: _ =>
    let confidence := composite_confidence answer chunks
    let confidence := if hasNotFound answer then (3/10) * confidence else confidence
    min (max confidence 0) 1

/-- Result record of `RAGEngine.generate_answer`. -/
structure AnswerResult where
  answer : String
  confidence : ℚ
  source_text : String
  source_chunk_index : ℤ
deriving Repr, DecidableEq

/-- `RAGEngine.generate_answer(query, context_chunks)`: the empty-context
response, the pre-generation low-similarity guardrail, the model call (or
its keyword fallback on failure), confidence scoring, and the
post-generation not-found guardrail.  The boolean records whether the
completion capability was invoked. -/
def generate_answer (query : String) (context_chunks : List (String × ℚ × ℤ))
    (llm : Option String) : AnswerResult × Bool :=
  match context_chunks with
  | [] => (⟨"No relevant information found in the document.", 0, "", -1⟩, false)
  | (bestChunk, bestScore, bestIdx) :: _ =>
    let context := (joinWith ('\n' :: '\n' :: []) (context_chunks.map fun t => t.1.data)).asString
    let sourceText := if bestChunk.data.length > 500
      then (bestChunk.data.take 500).asString ++ "..." else bestChunk
    if bestScore < 3/10 then
      (⟨"I cannot confidently answer this question based on the document content.",
        bestScore, sourceText, bestIdx⟩, false)
    else
      let answer := match llm with
        | some content => (pstrip content.data).asString
        | none => extract_answer_from_context query context
      let confidence := calculate_confidence answer context_chunks query
      let confidence := if hasNotFound answer then min confidence (3/10) else confidence
      (⟨answer, confidence, sourceText, bestIdx⟩, true)

/-! ## A small backtracking regex engine

This reproduces the semantics of Python `re.search` for the construct
subset used by `StructuredExtractor.extract_with_regex`, always under
`re.IGNORECASE | re.MULTILINE`: character classes, concatenation,
prioritized alternation, greedy and non-greedy counted repetition, one
capture group, `$` (MULTILINE) and `\b`.  Matching is continuation-passing
with explicit fuel (the fuel only bounds recursion depth; every search in
this development is given far more fuel than its maximal depth). -/

inductive RE where
  | eps
  | cls (p : Char → Bool)
  | seq (a b : RE)
  | alt (a b : RE)
  | rep (lo : Nat) (hi : Option Nat) (lz : Bool) (r : RE)
  | grp (r : RE)
  | eol
  | wordb

/-- Python `\w` (ASCII scope). -/
def isWordChar (oc : Option Char) : Bool :=
  match oc with
  | none => false
  | some c => c.isAlphanum || c = '_'

/-- CPS matcher.  `prev` is the character just before the current
position (for `\b`), `cap` the capture recorded so far; the continuation
receives the rest of the input, the new `prev` and the capture.  Results
are `(rest-of-input, capture)` pairs; alternatives are tried in Python's
backtracking order: left alternative first, longest-first for greedy
repetition, shortest-first for non-greedy. -/
def reM (fuel : Nat) (r : RE) (s : List Char) (prev : Option Char)
    (cap : Option (List Char))
    (k : List Char → Option Char → Option (List Char) →
      Option (List Char × Option (List Char))) :
    Option (List Char × Option (List Char)) :=
  match fuel with
  | 0 => none
  | fuel + 1 =>
    match r with
    | .eps => k s prev cap
    | .cls p =>
      match s with
      | [] => none
      | c :: t => if p c then k t (some c) cap else none
    | .seq a b => reM fuel a s prev cap fun s2 p2 c2 => reM fuel b s2 p2 c2 k
    | .alt a b =>
      match reM fuel a s prev cap k with
      | some res => some res
      | none => reM fuel b s prev cap k
    | .rep lo hi lz r1 =>
      match lo with
      | l0 + 1 =>
        reM fuel r1 s prev cap fun s2 p2 c2 =>
          reM fuel (.rep l0 (hi.map fun h => h - 1) lz r1) s2 p2 c2 k
      | 0 =>
        match hi with
        | some 0 => k s prev cap
        | _ =>
          let more := reM fuel r1 s prev cap fun s2 p2 c2 =>
            if s2.length = s.length then none
            else reM fuel (.rep 0 (hi.map fun h => h - 1) lz r1) s2 p2 c2 k
          let stop := k s prev cap
          if lz then
            match stop with
            | some res => some res
            | none => more
          else
            match more with
            | some res => some res
            | none => stop
    | .grp r1 =>
      reM fuel r1 s prev cap fun s2 p2 _ =>
        k s2 p2 (some (s.take (s.length - s2.length)))
    | .eol =>
      match s with
      | [] => k s prev cap
      | c :: _ => if c = '\n' then k s prev cap else none
    | .wordb =>
      if isWordChar prev ≠ isWordChar s.head? then k s prev cap else none

/-- `re.search`: try the pattern at each position, leftmost first;
result is `(whole match, capture of group 1)`. -/
def reSearchAux (fuel : Nat) (r : RE) : List Char → Option Char →
    Option (List Char × Option (List Char))
  | s, prev =>
    match reM fuel r s prev none fun rest _ c => some (rest, c) with
    | some (rest, cap) => some (s.take (s.length - rest.length), cap)
    | none =>
      match s with
      | [] => none
      | c :: t => reSearchAux fuel r t (some c)

/-- Fuel bound handed to every search: far above the maximal recursion
depth reachable on the inputs evaluated in this development. -/
def reFuel : Nat := 2000

def reSearch (r : RE) (text : List Char) :
    Option (List Char × Option (List Char)) :=
  reSearchAux reFuel r text none

/-- `match.group(1) if match.groups() else match.group(0)` — in every
pattern of the cascade that owns a group, the group participates in any
successful match. -/
def matchValue (hasGroup : Bool) (m : List Char × Option (List Char)) :
    List Char :=
  if hasGroup then
    match m.2 with
    | some g => g
    | none => m.1
  else m.1

/-! ### The concrete pattern ASTs (under `re.IGNORECASE`, so literals and
letter classes are case-blind) -/

/-- Case-insensitive literal character. -/
def chI (c : Char) : RE := .cls fun x => x = c.toLower || x = c.toUpper

/-- Case-insensitive literal string. -/
def litI (s : String) : RE := s.data.foldr (fun c r => .seq (chI c) r) .eps

/-- Prioritized alternation of a list (left to right). -/
def alts : List RE → RE
  | [] => .cls fun _ => false
  | [r] => r
  | r :: rs => .alt r (alts rs)

def cseq : List RE → RE
  | [] => .eps
  | [r] => r
  | r :: rs => .seq r (cseq rs)

/-- `\s` -/
def wsC : RE := .cls isWS
/-- `\s*` -/
def wsStar : RE := .rep 0 none false wsC
/-- `\s+` -/
def wsPlus : RE := .rep 1 none false wsC
/-- `\d` -/
def digC : RE := .cls Char.isDigit
def digRep (lo hi : Nat) : RE := .rep lo (some hi) false digC
/-- `[A-Z0-9]` under IGNORECASE. -/
def alnumC : RE := .cls Char.isAlphanum
/-- `[-A-Z0-9]` under IGNORECASE. -/
def dashAlnumC : RE := .cls fun c => c = '-' || c.isAlphanum
/-- `[A-Za-z0-9\s&\.,]` -/
def nameC : RE := .cls fun c => c.isAlphanum || isWS c || c = '&' || c = '.' || c = ','
/-- The equipment-type class: alphanumerics, whitespace, dash, slash. -/
def equipC : RE := .cls fun c => c.isAlphanum || isWS c || c = '-' || c = '/'
/-- `[A-Za-z]` under IGNORECASE. -/
def alphaC : RE := .cls Char.isAlpha
/-- The date-separator class: slash or dash. -/
def slashDashC : RE := .cls fun c => c = '/' || c = '-'
def opt (r : RE) : RE := .rep 0 (some 1) false r
def star (r : RE) : RE := .rep 0 none false r
/-- `+?` (non-greedy). -/
def plusLazy (r : RE) : RE := .rep 1 none true r
/-- literal `\n` inside `(?:\n|...)`. -/
def nlC : RE := .cls fun c => c = '\n'

/-- `(?:\n|$|Tel|Fax|Phone)` -/
def nameEnd : RE := alts [nlC, .eol, litI "Tel", litI "Fax", litI "Phone"]
/-- `(?:\n|$)` -/
def lineEnd : RE := alts [nlC, .eol]
/-- Day, month and year digit groups joined by slash-or-dash separators. -/
def dateCore : RE :=
  cseq [digRep 1 2, slashDashC, digRep 1 2, slashDashC, digRep 2 4]
/-- `\d{1,2}:\d{2}\s*(?:AM|PM)?` -/
def timeCore : RE :=
  cseq [digRep 1 2, chI ':', digRep 2 2, wsStar, opt (alts [litI "AM", litI "PM"])]
/-- `\d{1,3}(?:,\d{3})*(?:\.\d{2})?` -/
def moneyCore : RE :=
  cseq [digRep 1 3, star (.seq (chI ',') (digRep 3 3)), opt (.seq (chI '.') (digRep 2 2))]
/-- `\d{1,5}(?:,\d{3})*(?:\.\d{1})?` -/
def weightCore : RE :=
  cseq [digRep 1 5, star (.seq (chI ',') (digRep 3 3)), opt (.seq (chI '.') (digRep 1 1))]
/-- `(?:LBS|LB|POUNDS|KG|KGS)` -/
def weightUnit : RE := alts [litI "LBS", litI "LB", litI "POUNDS", litI "KG", litI "KGS"]

/-- The ordered pattern cascade of `extract_with_regex`, one entry per
field in the insertion order of the `patterns` dict; each pattern is
paired with whether it owns a capture group. -/
def fieldPatterns : List (String × List (RE × Bool)) :=
  [ ("shipment_id",
     [ (cseq [alts [litI "BOL", litI "PRO", .seq (litI "REF") (opt (litI "ERENCE")),
                    .seq (litI "SHIP") (opt (litI "MENT")), litI "LOAD", litI "BOOKING"],
              wsStar, opt (.cls fun c => c = '#' || c = ':' || c = ';'), wsStar,
              .grp (.seq alnumC (.rep 3 (some 20) false dashAlnumC))], true),
       (cseq [alts [litI "BILL OF LADING", litI "B/L"],
              wsStar, opt (.cls fun c => c = '#' || c = ':' || c = ';'), wsStar,
              .grp (.seq alnumC (.rep 3 (some 20) false dashAlnumC))], true),
       (.grp (digRep 6 20), true) ]),
    ("shipper",
     [ (cseq [alts [litI "SHIPPER", litI "FROM", litI "SENDER"],
              wsStar, .cls (fun c => c = ':' || c = '\n'), wsStar,
              .grp (plusLazy nameC), nameEnd], true),
       (cseq [litI "Shipper", wsStar, opt (.cls fun c => c = ':' || c = '-'), wsStar,
              .grp (plusLazy nameC), lineEnd], true),
       (cseq [litI "From:", wsStar, .grp (plusLazy nameC), lineEnd], true) ]),
    ("consignee",
     [ (cseq [alts [litI "CONSIGNEE", litI "TO", litI "RECEIVER", litI "DELIVER TO"],
              wsStar, .cls (fun c => c = ':' || c = '\n'), wsStar,
              .grp (plusLazy nameC), nameEnd], true),
       (cseq [litI "Consignee", wsStar, opt (.cls fun c => c = ':' || c = '-'), wsStar,
              .grp (plusLazy nameC), lineEnd], true),
       (cseq [litI "To:", wsStar, .grp (plusLazy nameC), lineEnd], true) ]),
    ("pickup_datetime",
     [ (cseq [alts [litI "PICKUP", litI "PU", litI "PICK UP"],
              wsStar, opt (alts [litI "DATE", litI "TIME", litI "DT"]), wsStar,
              .cls (fun c => c = ':' || c = '\n'), wsStar,
              .grp (cseq [dateCore, wsStar, timeCore])], true),
       (cseq [alts [litI "PICKUP", litI "PU", litI "PICK UP"],
              wsStar, opt (alts [litI "DATE", litI "TIME", litI "DT"]), wsStar,
              .cls (fun c => c = ':' || c = '\n'), wsStar,
              .grp dateCore], true),
       (.grp (cseq [dateCore, wsPlus, timeCore]), true) ]),
    ("delivery_datetime",
     [ (cseq [alts [.seq (litI "DELIVER") (opt (litI "Y")), litI "DEL",
                    .seq (litI "DROP") (opt (litI " OFF"))],
              wsStar, opt (alts [litI "DATE", litI "TIME", litI "DT"]), wsStar,
              .cls (fun c => c = ':' || c = '\n'), wsStar,
              .grp (cseq [dateCore, wsStar, timeCore])], true),
       (cseq [alts [.seq (litI "DELIVER") (opt (litI "Y")), litI "DEL",
                    .seq (litI "DROP") (opt (litI " OFF"))],
              wsStar, opt (alts [litI "DATE", litI "TIME", litI "DT"]), wsStar,
              .cls (fun c => c = ':' || c = '\n'), wsStar,
              .grp dateCore], true) ]),
    ("equipment_type",
     [ (cseq [alts [.seq (litI "EQUIP") (opt (litI "MENT")), litI "TRAILER",
                    litI "CONTAINER"],
              wsStar, .cls (fun c => c = ':' || c = '\n'), wsStar,
              .grp (plusLazy equipC), lineEnd], true),
       (alts [cseq [litI "53", opt (.cls fun c => c = '\'' || c = '"'), wsStar,
                    opt (alts [litI "FT", litI "FOOT"]), wsStar,
                    alts [litI "VAN", litI "REEFER", litI "DRY"]],
              cseq [litI "40", opt (.cls fun c => c = '\'' || c = '"'), wsStar,
                    opt (alts [litI "FT", litI "FOOT"]), wsStar,
                    alts [litI "CONTAINER", litI "HC"]],
              litI "REEFER", litI "VAN", litI "FLATBED"], false) ]),
    ("mode",
     [ (cseq [alts [litI "MODE", litI "SERVICE"],
              wsStar, .cls (fun c => c = ':' || c = '\n'), wsStar,
              .grp (.rep 1 none false alphaC)], true),
       (cseq [.wordb,
              .grp (alts [litI "TL", litI "FTL", litI "LTL", litI "TRUCK", litI "RAIL",
                          litI "OCEAN", litI "AIR", litI "GROUND", litI "EXPEDITE"]),
              .wordb], true) ]),
    ("rate",
     [ (cseq [alts [litI "RATE", litI "CHARGE", litI "AMOUNT", litI "TOTAL"],
              wsStar, opt (.cls fun c => c = ':' || c = '$'), wsStar,
              opt (chI '$'), wsStar, .grp moneyCore], true),
       (cseq [chI '$', wsStar, .grp moneyCore], true),
       (cseq [.grp (cseq [.rep 1 none false digC, chI '.', digRep 2 2]),
              wsStar, alts [litI "USD", litI "CAD"]], true) ]),
    ("currency",
     [ (cseq [litI "CURRENCY", wsStar, .cls (fun c => c = ':' || c = '\n'), wsStar,
              .grp (.rep 3 (some 3) false alphaC)], true),
       (cseq [.wordb,
              .grp (alts [litI "USD", litI "CAD", litI "EUR", litI "GBP", litI "MXN"]),
              .wordb], true) ]),
    ("weight",
     [ (cseq [alts [litI "WEIGHT", litI "WT", litI "GROSS", litI "NET"],
              wsStar, .cls (fun c => c = ':' || c = '\n'), wsStar,
              .grp weightCore, wsStar, weightUnit], true),
       (cseq [.grp weightCore, wsStar, weightUnit], true) ]),
    ("carrier_name",
     [ (cseq [alts [litI "CARRIER", litI "CARRIER NAME", litI "TRUCKING CO",
                    litI "TRANSPORT"],
              wsStar, .cls (fun c => c = ':' || c = '\n'), wsStar,
              .grp (plusLazy nameC), nameEnd], true),
       (cseq [litI "Carrier:", wsStar, .grp (plusLazy nameC), lineEnd], true) ]) ]

/-! ## StructuredExtractor

Extraction records are Python dicts mapping the 11 field names to `None`,
strings or numbers; they are modelled as ordered association lists over
the value type `Val` (the parsed-JSON values reaching
`clean_extracted_data` on the model path are of these shapes too). -/

inductive Val where
  | vnull
  | vstr (s : String)
  | vnum (q : ℚ)
deriving Repr, DecidableEq

/-- Python truthiness of a field value (`None`, `""` and `0` are falsy). -/
def truthy : Val → Bool
  | .vnull => false
  | .vstr s => !s.isEmpty
  | .vnum q => q ≠ 0

/-- An extraction-record dict. -/
abbrev ExtRec := List (String × Val)

/-- `d.get(k, None)` / `d[k]` on a record. -/
def dget (d : ExtRec) (k : String) : Val :=
  ((d.find? fun e => e.1 = k).map Prod.snd).getD .vnull

/-- `d[k] = v` (update in place if present, else append). -/
def dset (d : ExtRec) (k : String) (v : Val) : ExtRec :=
  if d.any fun e => e.1 = k then d.map fun e => if e.1 = k then (k, v) else e
  else d ++ [(k, v)]

/-- The `required_fields` list of `clean_extracted_data` (also the key
order of `get_empty_result`). -/
def required_fields : List String :=
  ["shipment_id", "shipper", "consignee", "pickup_datetime",
   "delivery_datetime", "equipment_type", "mode", "rate",
   "currency", "weight", "carrier_name"]

/-- `StructuredExtractor.get_empty_result`. -/
def get_empty_result : ExtRec :=
  [("shipment_id", .vnull), ("shipper", .vnull), ("consignee", .vnull),
   ("pickup_datetime", .vnull), ("delivery_datetime", .vnull),
   ("equipment_type", .vnull), ("mode", .vnull), ("rate", .vnull),
   ("currency", .vnull), ("weight", .vnull), ("carrier_name", .vnull)]

/-- `re.sub(r'\s+', ' ', s)`: each maximal whitespace run becomes one
space.  `prevWS` records whether the previous character was whitespace. -/
def collapseWSA (prevWS : Bool) : List Char → List Char
  | [] => []
  | c :: t =>
    if isWS c then
      if prevWS then collapseWSA true t else ' ' :: collapseWSA true t
    else c :: collapseWSA false t

def collapseWS (l : List Char) : List Char := collapseWSA false l

/-- `re.sub(r'[,:;]$', '', s)`: drop one trailing comma, colon or
semicolon. -/
def stripTrailPunct (l : List Char) : List Char :=
  match l.getLast? with
  | some c => if c = ',' || c = ':' || c = ';' then l.dropLast else l
  | none => l

/-- Value of a digit string. -/
def digitsNat (l : List Char) : Nat :=
  l.foldl (fun a c => 10 * a + (c.toNat - 48)) 0

/-- Python `float(s)` on a string of digits and dots: at most one dot and
at least one digit, else a `ValueError` (`none`).  The value
`intpart.fracpart` is the exact rational it denotes. -/
def pyFloat (l : List Char) : Option ℚ :=
  if !(l.all fun c => c.isDigit || c = '.') then none
  else
    match l.splitOn '.' with
    | [a] => if a.isEmpty then none else some (mkRat (digitsNat a) 1)
    | [a, b] =>
      if a.isEmpty && b.isEmpty then none
      else some (mkRat (digitsNat a * 10 ^ b.length + digitsNat b) (10 ^ b.length))
    | _ => none

/-- The name-field pass of `clean_extracted_data` (shipper, consignee,
carrier_name): collapse whitespace, trim, drop one trailing separator —
only for truthy strings. -/
def cleanNameV : Val → Val
  | .vstr s =>
    if s.isEmpty then .vstr s
    else .vstr (stripTrailPunct (pstrip (collapseWS s.data))).asString
  | v => v

/-- The rate/weight pass of `clean_extracted_data`: truthy strings are
filtered to digits and dots and parsed (`None` on failure, and also when
nothing remains); numbers pass through `float` unchanged; falsy values
(`None`, `""`, `0`) are skipped by the `if cleaned[...]` test. -/
def cleanNumV : Val → Val
  | .vstr s =>
    if s.isEmpty then .vstr s
    else
      match pyFloat (s.data.filter fun c => c.isDigit || c = '.') with
      | some q => .vnum q
      | none => .vnull
  | .vnum q => .vnum q
  | .vnull => .vnull

/-- First run of three consecutive uppercase letters
(`re.search(r'([A-Z]{3})', s)` without IGNORECASE). -/
def findUpper3 : List Char → Option (List Char)
  | a :: b :: c :: t =>
    if a.isUpper && b.isUpper && c.isUpper then some [a, b, c]
    else findUpper3 (b :: c :: t)
  | _ => none

/-- The currency pass of `clean_extracted_data`: truthy strings reduce to
the first 3-uppercase-letter run of their uppercasing, else `None`;
non-string values pass through untouched. -/
def cleanCurV : Val → Val
  | .vstr s =>
    if s.isEmpty then .vstr s
    else
      match findUpper3 (s.data.map Char.toUpper) with
      | some g => .vstr g.asString
      | none => .vnull
  | v => v

/-- The datetime pass of `clean_extracted_data`: truthy strings are
stripped, everything else kept as is. -/
def cleanDateV : Val → Val
  | .vstr s => if s.isEmpty then .vstr s else .vstr (pstrip s.data).asString
  | v => v

/-- `StructuredExtractor.clean_extracted_data(data)`: rebuild the record
over `required_fields` (missing keys become `None`), then apply the
field-specific passes in source order. -/
def clean_extracted_data (d : ExtRec) : ExtRec :=
  let c0 : ExtRec := required_fields.map fun f => (f, dget d f)
  let c1 := dset c0 "shipper" (cleanNameV (dget c0 "shipper"))
  let c2 := dset c1 "consignee" (cleanNameV (dget c1 "consignee"))
  let c3 := dset c2 "carrier_name" (cleanNameV (dget c2 "carrier_name"))
  let c4 := dset c3 "rate" (cleanNumV (dget c3 "rate"))
  let c5 := dset c4 "weight" (cleanNumV (dget c4 "weight"))
  let c6 := dset c5 "currency" (cleanCurV (dget c5 "currency"))
  let c7 := dset c6 "pickup_datetime" (cleanDateV (dget c6 "pickup_datetime"))
  dset c7 "delivery_datetime" (cleanDateV (dget c7 "delivery_datetime"))

/-- The per-match value post-processing of `extract_with_regex`: strip,
collapse whitespace, strip separator punctuation; numeric fields are then
digit-and-dot filtered and float-parsed (`None` on a parse error, the
string kept if the filter leaves nothing). -/
def procValue (numeric : Bool) (raw : List Char) : Val :=
  let v := pstripChars
    (fun c => c = ':' || c = ',' || c = ';' || c = '-' || c = '\n' || c = '\r' ||
      c = '\t' || c = ' ')
    (collapseWS (pstrip raw))
  if numeric then
    let cv := v.filter fun c => c.isDigit || c = '.'
    if cv.isEmpty then .vstr v.asString
    else
      match pyFloat cv with
      | some q => .vnum q
      | none => .vnull
  else .vstr v.asString

/-- First pattern of a field's cascade that matches: its extracted value
(group 1, or the whole match for a group-less pattern). -/
def firstMatch (pats : List (RE × Bool)) (text : List Char) : Option (List Char) :=
  match pats with
  | [] => none
  | (r, hg) :: rest =>
    match reSearch r text with
    | some m => some (matchValue hg m)
    | none => firstMatch rest text

/-- `StructuredExtractor.extract_with_regex(text)`: start from the empty
record, fill each field from the first matching pattern of its cascade,
then run the cleaning pass. -/
def extract_with_regex (text : String) : ExtRec :=
  let d := fieldPatterns.foldl
    (fun d fp =>
      match firstMatch fp.2 text.data with
      | some raw => dset d fp.1 (procValue (fp.1 = "rate" || fp.1 = "weight") raw)
      | none => d)
    get_empty_result
  clean_extracted_data d

/-- `any(v is not None for v in d.values())`. -/
def anyNonNull (d : ExtRec) : Bool := d.any fun e => e.2 ≠ .vnull

/-- `StructuredExtractor.extract_with_llm(text)` seen through its oracle:
`llmJson` is the dict recovered from the model response (`none` when the
API call failed, no brace-delimited JSON was found, or parsing failed —
all of which make the source return `{}`).  A recovered dict is cleaned
and returned when any value is non-null, else `{}`. -/
def extract_with_llm (llmJson : Option ExtRec) : ExtRec :=
  match llmJson with
  | none => []
  | some data =>
    let cleaned := clean_extracted_data data
    if anyNonNull cleaned then cleaned else []

/-- `StructuredExtractor.extract_fields(file_id)`: load the document
(empty record if missing), join chunks with newlines, try the model path
when configured, fall back to the regex cascade. -/
def extract_fields (st : Store) (useApi : Bool) (llmJson : Option ExtRec)
    (fid : String) : ExtRec × Store :=
  let ld := load_document st fid
  match ld.1 with
  | none => (get_empty_result, ld.2)
  | some doc =>
    let full_text := (joinWith ['\n'] (doc.chunks.map String.data)).asString
    if useApi then
      let result := extract_with_llm llmJson
      if !result.isEmpty && anyNonNull result then (result, ld.2)
      else (extract_with_regex full_text, ld.2)
    else (extract_with_regex full_text, ld.2)

/-! ## Claim theorems -/

/-- The ingestion scenario text of the spec's testable property. -/
def scenario_text : String := "BOL#: 123456789\nShipper: ABC Corp\nRate: $2,500.00"

/-- Its chunk sequence as produced at ingestion
(`clean_text` then `chunk_text`). -/
def scenario_chunks : List String :=
  (chunk_text (clean_text scenario_text.data) 500 100).map List.asString

/-- A store holding the ingested scenario document. -/
def scenario_store : Store :=
  ⟨[("doc1", ⟨some 0, scenario_chunks⟩)], fun _ => none, fun _ => none⟩

/-- C9: the composite confidence is clamped into `[0, 1]` for every
answer, every retrieval-result list and every query. -/
theorem C9_confidence_clamped (answer : String) (chunks : List (String × ℚ × ℤ))
    (query : String) :
    0 ≤ calculate_confidence answer chunks query ∧
      calculate_confidence answer chunks query ≤ 1 := by
  cases chunks with
  | nil => simp [calculate_confidence]
  | cons h t =>
    simp only [calculate_confidence]
    exact ⟨le_min (le_max_right _ _) zero_le_one, min_le_right _ _⟩

/-- C6: when the top retrieval similarity is below the 0.3 threshold,
`generate_answer` returns the fixed low-confidence response, its
confidence is exactly that similarity, and the completion capability is
never invoked. -/
theorem C6_low_similarity_short_circuit (query : String) (c : String) (s : ℚ)
    (i : ℤ) (rest : List (String × ℚ × ℤ)) (llm : Option String)
    (hs : s < 3/10) :
    (generate_answer query ((c, s, i) :: rest) llm).1.answer
        = "I cannot confidently answer this question based on the document content." ∧
    (generate_answer query ((c, s, i) :: rest) llm).1.confidence = s ∧
    (generate_answer query ((c, s, i) :: rest) llm).2 = false := by
  simp [generate_answer, hs]

theorem foldl_retrieveStep_none (chunks : List String) :
    ∀ so : List (ℚ × ℤ), so.foldl (retrieveStep chunks) none = none := by
  intro so
  induction so with
  | nil => rfl
  | cons q t ih => rw [List.foldl_cons]; exact ih

theorem retrieveStep_some (chunks : List String)
    (rs : List (String × ℚ × ℤ)) (p : ℚ × ℤ) :
    retrieveStep chunks (some rs) p
      = if p.2 < (chunks.length : ℤ) then
          match pyGet chunks p.2 with
          | some c => some (rs ++ [(c, 1 / (1 + p.1), p.2)])
          | none => none
        else some rs := rfl

/-- Accumulating soundness of the retrieval fold: every triple of the
result satisfies the bound and lookup relation. -/
theorem retrieve_fold_sound (chunks : List String) :
    ∀ (so : List (ℚ × ℤ)) (acc rs : List (String × ℚ × ℤ)),
      (∀ tr ∈ acc, tr.2.2 < (chunks.length : ℤ) ∧ pyGet chunks tr.2.2 = some tr.1) →
      so.foldl (retrieveStep chunks) (some acc) = some rs →
      ∀ tr ∈ rs, tr.2.2 < (chunks.length : ℤ) ∧ pyGet chunks tr.2.2 = some tr.1 := by
  intro so
  induction so with
  | nil =>
    intro acc rs hacc h
    simp only [List.foldl_nil, Option.some.injEq] at h
    subst h
    exact hacc
  | cons p rest ih =>
    intro acc rs hacc h
    rw [List.foldl_cons, retrieveStep_some] at h
    by_cases hb : p.2 < (chunks.length : ℤ)
    · rw [if_pos hb] at h
      rcases hg : pyGet chunks p.2 with _ | c
      · rw [hg, foldl_retrieveStep_none] at h
        exact absurd h (by simp)
      · rw [hg] at h
        refine ih (acc ++ [(c, 1 / (1 + p.1), p.2)]) rs ?_ h
        intro tr htr
        rcases List.mem_append.mp htr with hmem | hmem
        · exact hacc tr hmem
        · rcases List.mem_singleton.mp hmem with rfl
          exact ⟨hb, hg⟩
    · rw [if_neg hb] at h
      exact ih acc rs hacc h

/-- C4 (amended): whenever `retrieve_relevant_chunks` completes, every
returned triple has a position strictly below the chunk count whose
Python-indexed lookup (negative positions count from the end) yields the
triple's text; positions at or above the chunk count are skipped — but
negative positions returned by the index search are not skipped. -/
theorem C4_positions_bounded (st : Store) (q fid : String)
    (so : List (ℚ × ℤ)) (rs : List (String × ℚ × ℤ))
    (hres : (retrieve_relevant_chunks st q fid so).1 = some rs) :
    ∀ tr ∈ rs, ∃ doc, (load_document st fid).1 = some doc ∧
      tr.2.2 < (doc.chunks.length : ℤ) ∧ pyGet doc.chunks tr.2.2 = some tr.1 := by
  intro tr htr
  unfold retrieve_relevant_chunks at hres
  rcases hld : load_document st fid with ⟨od, st2⟩
  rw [hld] at hres
  cases od with
  | none =>
    simp only [Option.some.injEq] at hres
    subst hres
    exact absurd htr (by simp)
  | some doc =>
    rcases hidx : doc.index? with _ | ix <;> simp only [hidx] at hres
    · exact absurd hres (by simp)
    · refine ⟨doc, rfl, ?_⟩
      exact retrieve_fold_sound doc.chunks so [] rs (by simp) hres tr htr

/-- A one-chunk document store used to exercise the retrieval bound
check. -/
def c4_store : Store := ⟨[("d", ⟨some 0, ["c0"]⟩)], fun _ => none, fun _ => none⟩

theorem any_of_alistGet_some {m : List (String × DocEntry)} {k : String}
    {v : DocEntry} (h : alistGet m k = some v) :
    (m.any fun e => e.1 = k) = true := by
  unfold alistGet at h
  rcases hf : m.find? fun e => e.1 = k with _ | e
  · rw [hf] at h; simp at h
  · have hm := List.mem_of_find?_eq_some hf
    have hp := List.find?_some hf
    exact List.any_eq_true.mpr ⟨e, hm, hp⟩

theorem find?_set_self {k : String} {v : DocEntry} :
    ∀ m : List (String × DocEntry), (m.any fun e => e.1 = k) = true →
      ((m.map fun e => if e.1 = k then (k, v) else e).find? fun e => e.1 = k)
        = some (k, v) := by
  intro m
  induction m with
  | nil => intro h; simp at h
  | cons e t ih =>
    intro h
    by_cases he : e.1 = k
    · simp [List.find?, he]
    · have ht : (t.any fun e => e.1 = k) = true := by
        simpa [List.any_cons, he] using h
      simpa [List.find?, he] using ih ht

theorem alistGet_alistSet_self {m : List (String × DocEntry)} {k : String}
    {v : DocEntry} (h : (m.any fun e => e.1 = k) = true) :
    alistGet (alistSet m k v) k = some v := by
  unfold alistGet alistSet
  rw [if_pos h, find?_set_self m h]
  rfl

theorem load_document_none_iff (st : Store) (fid : String) :
    (load_document st fid).1 = none ↔
      alistGet st.documents fid = none ∧
        (st.diskIndex fid = none ∨ st.diskChunks fid = none) := by
  unfold load_document
  rcases hm : alistGet st.documents fid with _ | doc
  · rcases hdi : st.diskIndex fid with _ | idx <;>
      rcases hdc : st.diskChunks fid with _ | chs <;> simp
  · rcases hix : doc.index? with _ | ix
    · rcases hdi : st.diskIndex fid with _ | idx <;> simp [hix]
    · simp [hix]

theorem load_document_patch (st : Store) (fid : String) (doc : DocEntry)
    (idx : FaissIndex) (hget : alistGet st.documents fid = some doc)
    (hix : doc.index? = none) (hdi : st.diskIndex fid = some idx) :
    (load_document st fid).1 = some { doc with index? := some idx } ∧
    alistGet (load_document st fid).2.documents fid
      = some { doc with index? := some idx } := by
  constructor
  · unfold load_document
    simp [hget, hix, hdi]
  · unfold load_document
    simp only [hget, hix, hdi]
    exact alistGet_alistSet_self (any_of_alistGet_some hget)

theorem load_document_unpatched (st : Store) (fid : String) (doc : DocEntry)
    (hget : alistGet st.documents fid = some doc) (hix : doc.index? = none)
    (hdi : st.diskIndex fid = none) :
    (load_document st fid).1 = some doc := by
  unfold load_document
  simp [hget, hix, hdi]

/-- C7 (amended): `load_document` returns `None` exactly when the
identifier misses the in-memory map and durable storage lacks a complete
pair; a memory entry lacking its index is patched in place from durable
storage when the index blob is readable — but when durable storage also
lacks the blob, the incomplete memory entry is returned as is (not
`None`), contrary to the first half of the original claim. -/
theorem C7_load_document_spec (st : Store) (fid : String) :
    ((load_document st fid).1 = none ↔
      alistGet st.documents fid = none ∧
        (st.diskIndex fid = none ∨ st.diskChunks fid = none)) ∧
    (∀ doc idx, alistGet st.documents fid = some doc → doc.index? = none →
      st.diskIndex fid = some idx →
      (load_document st fid).1 = some { doc with index? := some idx } ∧
      alistGet (load_document st fid).2.documents fid
        = some { doc with index? := some idx }) ∧
    (∀ doc, alistGet st.documents fid = some doc → doc.index? = none →
      st.diskIndex fid = none → (load_document st fid).1 = some doc) :=
  ⟨load_document_none_iff st fid,
   fun doc idx hget hix hdi => load_document_patch st fid doc idx hget hix hdi,
   fun doc hget hix hdi => load_document_unpatched st fid doc hget hix hdi⟩

/-- A store whose only memory entry lacks its index while durable storage
is empty: neither side holds a complete pair. -/
def c7_store : Store := ⟨[("d", ⟨none, ["c"]⟩)], fun _ => none, fun _ => none⟩

/-- C7 counterexample: with the memory entry missing its index and durable
storage holding nothing (so neither memory nor durable storage has a
complete index-plus-chunks pair), `load_document` returns the incomplete
entry rather than the not-found `None` the claim demands. -/
theorem C7_counterexample :
    (load_document c7_store "d").1 = some ⟨none, ["c"]⟩ ∧
    (load_document c7_store "d").1 ≠ none ∧
    c7_store.diskIndex "d" = none ∧ c7_store.diskChunks "d" = none := by
  refine ⟨rfl, by simp [load_document, alistGet, List.find?, c7_store], rfl, rfl⟩

/-- A store whose memory entry lacks its index while durable storage can
supply it. -/
def c7_patch_store : Store :=
  ⟨[("d", ⟨none, ["c"]⟩)], fun s => if s = "d" then some 7 else none, fun _ => none⟩

/-- C7 witness: the recoverable-inconsistency path — the index is reloaded
from durable storage and patched into the returned entry and into the
in-memory map. -/
theorem C7_witness :
    (load_document c7_patch_store "d").1 = some ⟨some 7, ["c"]⟩ ∧
    alistGet (load_document c7_patch_store "d").2.documents "d"
      = some ⟨some 7, ["c"]⟩ :=
  (C7_load_document_spec c7_patch_store "d").2.1 ⟨none, ["c"]⟩ 7 (by decide) rfl
    (by decide)

theorem map_fst_dset_req (c : ExtRec) (k : String) (v : Val)
    (hc : c.map Prod.fst = required_fields) (hk : k ∈ required_fields) :
    (dset c k v).map Prod.fst = required_fields := by
  have hany : (c.any fun e => e.1 = k) = true := by
    have hk2 : k ∈ c.map Prod.fst := by rw [hc]; exact hk
    rcases List.mem_map.mp hk2 with ⟨e, hem, hfst⟩
    exact List.any_eq_true.mpr ⟨e, hem, by simpa using hfst⟩
  unfold dset
  rw [if_pos hany, List.map_map, ← hc]
  apply List.map_congr_left
  intro e _
  by_cases he : e.1 = k
  · simp [he]
  · simp [he]

theorem clean_keys (d : ExtRec) :
    (clean_extracted_data d).map Prod.fst = required_fields := by
  have h0 : ((required_fields.map fun f => (f, dget d f)).map Prod.fst)
      = required_fields := by
    rw [List.map_map]
    exact (List.map_congr_left fun a _ => rfl).trans (List.map_id _)
  unfold clean_extracted_data
  exact map_fst_dset_req _ _ _
    (map_fst_dset_req _ _ _
      (map_fst_dset_req _ _ _
        (map_fst_dset_req _ _ _
          (map_fst_dset_req _ _ _
            (map_fst_dset_req _ _ _
              (map_fst_dset_req _ _ _
                (map_fst_dset_req _ _ _ h0 (by decide))
                (by decide))
              (by decide))
            (by decide))
          (by decide))
        (by decide))
      (by decide))
    (by decide)

theorem extract_with_regex_keys (text : String) :
    (extract_with_regex text).map Prod.fst = required_fields := by
  unfold extract_with_regex
  exact clean_keys _

theorem extract_with_llm_keys (llmJson : Option ExtRec)
    (h : (extract_with_llm llmJson).isEmpty = false) :
    (extract_with_llm llmJson).map Prod.fst = required_fields := by
  rcases llmJson with _ | data
  · simp [extract_with_llm] at h
  · unfold extract_with_llm at h ⊢
    by_cases h2 : anyNonNull (clean_extracted_data data) = true
    · simp only [h2, if_true]
      exact clean_keys data
    · simp [h2] at h

/-- C8: every record `extract_fields` returns carries exactly the 11
field names (in the fixed order), with missing values present as null
rather than omitted; an identifier unknown to the store yields the
all-null record. -/
theorem C8_record_shape (st : Store) (useApi : Bool) (llmJson : Option ExtRec)
    (fid : String) :
    ((extract_fields st useApi llmJson fid).1.map Prod.fst = required_fields) ∧
    ((load_document st fid).1 = none →
      (extract_fields st useApi llmJson fid).1 = get_empty_result) := by
  unfold extract_fields
  rcases hld : (load_document st fid).1 with _ | doc <;> simp only [hld]
  · exact ⟨by decide, fun _ => trivial⟩
  · refine ⟨?_, fun hnone => absurd hnone (by simp)⟩
    cases useApi with
    | false =>
      simp only [Bool.false_eq_true, if_false]
      exact extract_with_regex_keys _
    | true =>
      simp only [reduceIte]
      rcases llmJson with _ | data
      · rw [show extract_with_llm (none : Option ExtRec) = [] from rfl,
          if_neg (show ¬(!(List.isEmpty ([] : ExtRec))
            && anyNonNull ([] : ExtRec)) = true by decide)]
        dsimp only
        exact extract_with_regex_keys _
      · by_cases h2 : anyNonNull (clean_extracted_data data) = true
        · have he : extract_with_llm (some data) = clean_extracted_data data := by
            show (if anyNonNull (clean_extracted_data data) = true then
              clean_extracted_data data else []) = clean_extracted_data data
            rw [if_pos h2]
          have hne : (clean_extracted_data data).isEmpty = false := by
            rcases hcl : clean_extracted_data data with _ | ⟨e, t⟩
            · have hk := clean_keys data
              rw [hcl] at hk
              exact absurd hk.symm (by decide)
            · rfl
          rw [he, if_pos (show (!(clean_extracted_data data).isEmpty
            && anyNonNull (clean_extracted_data data)) = true by rw [hne, h2]; rfl)]
          dsimp only
          exact clean_keys data
        · have he : extract_with_llm (some data) = [] := by
            show (if anyNonNull (clean_extracted_data data) = true then
              clean_extracted_data data else []) = []
            rw [if_neg h2]
          rw [he, if_neg (show ¬(!(List.isEmpty ([] : ExtRec))
            && anyNonNull ([] : ExtRec)) = true by decide)]
          dsimp only
          exact extract_with_regex_keys _

/-- C8 witness: an identifier absent from memory and durable storage
yields the all-null record. -/
theorem C8_witness :
    (extract_fields ⟨[], fun _ => none, fun _ => none⟩ false none "nope").1
      = get_empty_result :=
  (C8_record_shape ⟨[], fun _ => none, fun _ => none⟩ false none "nope").2 (by decide)

theorem dget_cons (e : String × Val) (m : ExtRec) (f : String) :
    dget (e :: m) f = if e.1 = f then e.2 else dget m f := by
  unfold dget
  by_cases he : e.1 = f
  · rw [List.find?_cons_of_pos _ (by simpa using he), if_pos he]
    rfl
  · rw [List.find?_cons_of_neg _ (by simpa using he), if_neg he]

theorem find?_dset_map_ne {k k' : String} {v : Val} (h : k ≠ k') :
    ∀ m : ExtRec,
      ((m.map fun e => if e.1 = k then (k, v) else e).find? fun e => e.1 = k')
        = m.find? fun e => e.1 = k' := by
  intro m
  induction m with
  | nil => rfl
  | cons e t ih =>
    rw [List.map_cons]
    by_cases he : e.1 = k
    · rw [if_pos he,
        List.find?_cons_of_neg _ (by simpa using h),
        List.find?_cons_of_neg _ (by simp [he, h])]
      exact ih
    · rw [if_neg he]
      by_cases he2 : e.1 = k'
      · rw [List.find?_cons_of_pos _ (by simpa using he2),
          List.find?_cons_of_pos _ (by simpa using he2)]
      · rw [List.find?_cons_of_neg _ (by simpa using he2),
          List.find?_cons_of_neg _ (by simpa using he2)]
        exact ih

theorem find?_append_single_ne {k k' : String} {v : Val} (h : k ≠ k') :
    ∀ m : ExtRec,
      ((m ++ [(k, v)]).find? fun e => e.1 = k') = m.find? fun e => e.1 = k' := by
  intro m
  induction m with
  | nil =>
    rw [List.nil_append, List.find?_cons_of_neg _ (by simpa using h)]
  | cons e t ih =>
    rw [List.cons_append]
    by_cases he : e.1 = k'
    · rw [List.find?_cons_of_pos _ (by simpa using he),
        List.find?_cons_of_pos _ (by simpa using he)]
    · rw [List.find?_cons_of_neg _ (by simpa using he),
        List.find?_cons_of_neg _ (by simpa using he)]
      exact ih

theorem dget_dset_ne (d : ExtRec) {k k' : String} (v : Val) (h : k ≠ k') :
    dget (dset d k v) k' = dget d k' := by
  unfold dget dset
  by_cases hany : (d.any fun e => e.1 = k) = true
  · rw [if_pos hany, find?_dset_map_ne h]
  · rw [if_neg hany, find?_append_single_ne h]

theorem dfind?_update_self {k : String} {v : Val} :
    ∀ m : ExtRec, (m.any fun e => e.1 = k) = true →
      ((m.map fun e => if e.1 = k then (k, v) else e).find? fun e => e.1 = k)
        = some (k, v) := by
  intro m
  induction m with
  | nil => intro h; simp at h
  | cons e t ih =>
    intro h
    rw [List.map_cons]
    by_cases he : e.1 = k
    · rw [if_pos he, List.find?_cons_of_pos _ (by simp)]
    · rw [if_neg he, List.find?_cons_of_neg _ (by simpa using he)]
      have ht : (t.any fun e => e.1 = k) = true := by
        simpa [List.any_cons, he] using h
      exact ih ht

theorem dget_dset_self (d : ExtRec) (k : String) (v : Val)
    (hany : (d.any fun e => e.1 = k) = true) : dget (dset d k v) k = v := by
  unfold dget dset
  rw [if_pos hany, dfind?_update_self d hany]
  rfl

theorem dget_map_fields (d : ExtRec) (f : String) :
    ∀ L : List String, f ∈ L →
      dget (L.map fun g => (g, dget d g)) f = dget d f := by
  intro L
  induction L with
  | nil => intro h; simp at h
  | cons g rest ih =>
    intro hf
    rw [List.map_cons, dget_cons]
    by_cases hg : g = f
    · rw [if_pos hg, hg]
    · rw [if_neg hg]
      refine ih ?_
      rcases List.mem_cons.mp hf with h | h
      · exact absurd h.symm hg
      · exact h

theorem any_map_general {α β : Type} (f : α → β) (p : β → Bool) :
    ∀ l : List α, (l.map f).any p = l.any fun a => p (f a) := by
  intro l
  induction l with
  | nil => rfl
  | cons a t ih => simp [List.any_cons, ih]

theorem any_key_c0 (d : ExtRec) (k : String) (hk : k ∈ required_fields) :
    ((required_fields.map fun g => (g, dget d g)).any fun e => e.1 = k) = true := by
  rw [any_map_general]
  exact List.any_eq_true.mpr ⟨k, hk, by simp⟩

theorem any_key_dset (d : ExtRec) (k k2 : String) (v : Val)
    (h : (d.any fun e => e.1 = k2) = true) :
    ((dset d k v).any fun e => e.1 = k2) = true := by
  unfold dset
  by_cases hany : (d.any fun e => e.1 = k) = true
  · rw [if_pos hany, List.any_map]
    rcases List.any_eq_true.mp h with ⟨e, hem, hpe⟩
    refine List.any_eq_true.mpr ⟨e, hem, ?_⟩
    by_cases he : e.1 = k
    · have hk2 : e.1 = k2 := by simpa using hpe
      simp [he, he.symm.trans hk2]
    · simpa [he] using hpe
  · rw [if_neg hany]
    rcases List.any_eq_true.mp h with ⟨e, hem, hpe⟩
    exact List.any_eq_true.mpr ⟨e, List.mem_append_left _ hem, hpe⟩

theorem dget_clean_rate (d : ExtRec) :
    dget (clean_extracted_data d) "rate" = cleanNumV (dget d "rate") := by
  unfold clean_extracted_data
  rw [dget_dset_ne _ _ (by decide), dget_dset_ne _ _ (by decide),
    dget_dset_ne _ _ (by decide), dget_dset_ne _ _ (by decide),
    dget_dset_self _ _ _
      (any_key_dset _ _ _ _ (any_key_dset _ _ _ _ (any_key_dset _ _ _ _
        (any_key_c0 d "rate" (by decide)))))]
  rw [dget_dset_ne _ _ (by decide), dget_dset_ne _ _ (by decide),
    dget_dset_ne _ _ (by decide), dget_map_fields d "rate" _ (by decide)]

theorem dget_clean_weight (d : ExtRec) :
    dget (clean_extracted_data d) "weight" = cleanNumV (dget d "weight") := by
  unfold clean_extracted_data
  rw [dget_dset_ne _ _ (by decide), dget_dset_ne _ _ (by decide),
    dget_dset_ne _ _ (by decide),
    dget_dset_self _ _ _
      (any_key_dset _ _ _ _ (any_key_dset _ _ _ _ (any_key_dset _ _ _ _
        (any_key_dset _ _ _ _ (any_key_c0 d "weight" (by decide))))))]
  rw [dget_dset_ne _ _ (by decide), dget_dset_ne _ _ (by decide),
    dget_dset_ne _ _ (by decide), dget_dset_ne _ _ (by decide),
    dget_map_fields d "weight" _ (by decide)]

theorem dget_clean_currency (d : ExtRec) :
    dget (clean_extracted_data d) "currency" = cleanCurV (dget d "currency") := by
  unfold clean_extracted_data
  rw [dget_dset_ne _ _ (by decide), dget_dset_ne _ _ (by decide),
    dget_dset_self _ _ _
      (any_key_dset _ _ _ _ (any_key_dset _ _ _ _ (any_key_dset _ _ _ _
        (any_key_dset _ _ _ _ (any_key_dset _ _ _ _
          (any_key_c0 d "currency" (by decide)))))))]
  rw [dget_dset_ne _ _ (by decide), dget_dset_ne _ _ (by decide),
    dget_dset_ne _ _ (by decide), dget_dset_ne _ _ (by decide),
    dget_dset_ne _ _ (by decide), dget_map_fields d "currency" _ (by decide)]

theorem cleanNumV_shape (v : Val) :
    cleanNumV v = Val.vnull ∨ cleanNumV v = Val.vstr "" ∨
      ∃ q, cleanNumV v = Val.vnum q := by
  cases v with
  | vnull => exact Or.inl rfl
  | vnum q => exact Or.inr (Or.inr ⟨q, rfl⟩)
  | vstr s =>
    by_cases hs : s.isEmpty = true
    · refine Or.inr (Or.inl ?_)
      have hse : s = "" := (String.isEmpty_iff s).mp hs
      subst hse
      rfl
    · rcases hp : pyFloat (s.data.filter fun c => c.isDigit || c = '.') with _ | q
      · exact Or.inl (by simp [cleanNumV, hs, hp])
      · exact Or.inr (Or.inr ⟨q, by simp [cleanNumV, hs, hp]⟩)

theorem findUpper3_shape : ∀ (l g : List Char), findUpper3 l = some g →
    g.length = 3 ∧ g.all Char.isUpper = true := by
  intro l
  induction l with
  | nil => intro g h; simp [findUpper3] at h
  | cons a t ih =>
    intro g h
    match t, h with
    | [], h => simp [findUpper3] at h
    | [b], h => simp [findUpper3] at h
    | b :: c :: t2, h =>
      by_cases habc : (a.isUpper && b.isUpper && c.isUpper) = true
      · rw [show findUpper3 (a :: b :: c :: t2) = some [a, b, c] by
          simp [findUpper3, habc]] at h
        rcases Option.some_inj.mp h with rfl
        simp only [List.length_cons, List.length_nil, List.all_cons, List.all_nil]
        rcases Bool.and_eq_true_iff.mp habc with ⟨hab, hc⟩
        rcases Bool.and_eq_true_iff.mp hab with ⟨ha, hb⟩
        simp [ha, hb, hc]
      · rw [show findUpper3 (a :: b :: c :: t2) = findUpper3 (b :: c :: t2) by
          simp [findUpper3, habc]] at h
        exact ih g h

theorem cleanCurV_shape (v : Val) :
    cleanCurV v = Val.vnull ∨ cleanCurV v = Val.vstr "" ∨
      (∃ q, cleanCurV v = Val.vnum q ∧ v = Val.vnum q) ∨
      (∃ s : String, cleanCurV v = Val.vstr s ∧ s.length = 3 ∧
        s.data.all Char.isUpper = true) := by
  cases v with
  | vnull => exact Or.inl rfl
  | vnum q => exact Or.inr (Or.inr (Or.inl ⟨q, rfl, rfl⟩))
  | vstr s =>
    by_cases hs : s.isEmpty = true
    · have hse : s = "" := (String.isEmpty_iff s).mp hs
      subst hse
      exact Or.inr (Or.inl rfl)
    · rcases hf : findUpper3 (s.data.map Char.toUpper) with _ | g
      · exact Or.inl (by simp [cleanCurV, hs, hf])
      · refine Or.inr (Or.inr (Or.inr ⟨g.asString, by simp [cleanCurV, hs, hf], ?_, ?_⟩))
        · rw [List.length_asString]
          exact (findUpper3_shape _ g hf).1
        · rw [show (g.asString).data = g from List.toList_asString g]
          exact (findUpper3_shape _ g hf).2

/-- C3 (amended): after the cleaning pass, `rate` and `weight` are each
null, the unchanged empty string (a falsy value the pass skips), or a
float — positivity is not checked, so zero and negative floats survive;
`currency` is null, the unchanged empty string, an unchanged non-string
(numeric) value, or a 3-uppercase-letter code. -/
theorem C3_cleaned_value_shapes (d : ExtRec) :
    (dget (clean_extracted_data d) "rate" = Val.vnull ∨
     dget (clean_extracted_data d) "rate" = Val.vstr "" ∨
     (∃ q, dget (clean_extracted_data d) "rate" = Val.vnum q)) ∧
    (dget (clean_extracted_data d) "weight" = Val.vnull ∨
     dget (clean_extracted_data d) "weight" = Val.vstr "" ∨
     (∃ q, dget (clean_extracted_data d) "weight" = Val.vnum q)) ∧
    (dget (clean_extracted_data d) "currency" = Val.vnull ∨
     dget (clean_extracted_data d) "currency" = Val.vstr "" ∨
     (∃ q, dget (clean_extracted_data d) "currency" = Val.vnum q ∧
       dget d "currency" = Val.vnum q) ∨
     (∃ s : String, dget (clean_extracted_data d) "currency" = Val.vstr s ∧
       s.length = 3 ∧ s.data.all Char.isUpper = true)) := by
  refine ⟨?_, ?_, ?_⟩
  · rw [dget_clean_rate]
    exact cleanNumV_shape _
  · rw [dget_clean_weight]
    exact cleanNumV_shape _
  · rw [dget_clean_currency]
    rcases cleanCurV_shape (dget d "currency") with h | h | ⟨q, h1, h2⟩ | ⟨s, h1, h2, h3⟩
    · exact Or.inl h
    · exact Or.inr (Or.inl h)
    · exact Or.inr (Or.inr (Or.inl ⟨q, h1, h2⟩))
    · exact Or.inr (Or.inr (Or.inr ⟨s, h1, h2, h3⟩))

theorem coverage_bounds (A B : Finset String) :
    0 ≤ (if A.card ≠ 0 then ((A ∩ B).card : ℚ) / A.card else 0) ∧
    (if A.card ≠ 0 then ((A ∩ B).card : ℚ) / A.card else 0) ≤ 1 := by
  by_cases h : A.card ≠ 0
  · constructor
    · rw [if_pos h]
      positivity
    · rw [if_pos h, div_le_one (by exact_mod_cast Nat.pos_of_ne_zero h)]
      exact_mod_cast Finset.card_le_card Finset.inter_subset_left
  · constructor <;> rw [if_neg h] <;> norm_num

theorem jaccard_bounds (A B : Finset String) :
    0 ≤ (if A.card ≠ 0 ∧ B.card ≠ 0 then ((A ∩ B).card : ℚ) / ((A ∪ B).card : ℚ)
      else 1/2) ∧
    (if A.card ≠ 0 ∧ B.card ≠ 0 then ((A ∩ B).card : ℚ) / ((A ∪ B).card : ℚ)
      else 1/2) ≤ 1 := by
  by_cases h : A.card ≠ 0 ∧ B.card ≠ 0
  · have hu : 0 < (A ∪ B).card :=
      lt_of_lt_of_le (Nat.pos_of_ne_zero h.1)
        (Finset.card_le_card Finset.subset_union_left)
    constructor
    · rw [if_pos h]
      positivity
    · rw [if_pos h, div_le_one (by exact_mod_cast hu)]
      exact_mod_cast Finset.card_le_card Finset.inter_subset_union
  · constructor <;> rw [if_neg h] <;> norm_num

theorem composite_confidence_bounds (answer c : String) (s : ℚ) (i : ℤ)
    (rest : List (String × ℚ × ℤ)) (hs0 : 0 ≤ s) (hs1 : s ≤ 1) :
    0 ≤ composite_confidence answer ((c, s, i) :: rest) ∧
      composite_confidence answer ((c, s, i) :: rest) ≤ 1 := by
  unfold composite_confidence
  rcases rest with _ | ⟨⟨c1, s1, i1⟩, rest2⟩
  · have h1 := coverage_bounds (wordSet answer) (wordSet c)
    dsimp only
    constructor <;> [nlinarith [h1.1, h1.2]; nlinarith [h1.1, h1.2]]
  · have h1 := coverage_bounds (wordSet answer) (wordSet c)
    have h2 := jaccard_bounds (wordSet c) (wordSet c1)
    dsimp only
    constructor <;> [nlinarith [h1.1, h1.2, h2.1, h2.2]; nlinarith [h1.1, h1.2, h2.1, h2.2]]

/-- With a not-found answer, `calculate_confidence` equals
`0.3 * composite` exactly (the internal clamp is inert because the
composite lies in `[0, 1]`). -/
theorem calc_conf_notfound (A c : String) (s : ℚ) (i : ℤ)
    (rest : List (String × ℚ × ℤ)) (query : String)
    (hs0 : 0 ≤ s) (hs1 : s ≤ 1) (hp : hasNotFound A = true) :
    calculate_confidence A ((c, s, i) :: rest) query
      = (3/10) * composite_confidence A ((c, s, i) :: rest) ∧
    calculate_confidence A ((c, s, i) :: rest) query ≤ 3/10 := by
  have hb := composite_confidence_bounds A c s i rest hs0 hs1
  unfold calculate_confidence
  dsimp only
  rw [if_pos hp]
  rw [max_eq_left (by nlinarith [hb.1]), min_eq_left (by nlinarith [hb.2])]
  exact ⟨rfl, by nlinarith [hb.2]⟩

/-- The main branch of `generate_answer`: confidence is the composite
score, capped at 0.3 when the answer reads as not-found. -/
theorem generate_answer_main_conf (query c : String) (s : ℚ) (i : ℤ)
    (rest : List (String × ℚ × ℤ)) (llm : Option String) (hge : ¬ s < 3/10) :
    (generate_answer query ((c, s, i) :: rest) llm).1.confidence
      = (if hasNotFound (generate_answer query ((c, s, i) :: rest) llm).1.answer then
          min (calculate_confidence
            (generate_answer query ((c, s, i) :: rest) llm).1.answer
            ((c, s, i) :: rest) query) (3/10)
         else calculate_confidence
            (generate_answer query ((c, s, i) :: rest) llm).1.answer
            ((c, s, i) :: rest) query) := by
  unfold generate_answer
  dsimp only
  rw [if_neg hge]

/-- C5: whenever the answer of `generate_answer` contains "not found" or
"cannot answer" (case-insensitively), the returned confidence is exactly
the composite confidence multiplied by 0.3 — the multiplication inside
`calculate_confidence` and the cap inside `generate_answer` never
compound (the cap is inert once the multiplication has fired), and the
result never exceeds 0.3. -/
theorem C5_notfound_reduction_once (query c : String) (s : ℚ) (i : ℤ)
    (rest : List (String × ℚ × ℤ)) (llm : Option String)
    (hs0 : 0 ≤ s) (hs1 : s ≤ 1)
    (hp : hasNotFound (generate_answer query ((c, s, i) :: rest) llm).1.answer = true) :
    (generate_answer query ((c, s, i) :: rest) llm).1.confidence
      = (3/10) * composite_confidence
          (generate_answer query ((c, s, i) :: rest) llm).1.answer
          ((c, s, i) :: rest) ∧
    (generate_answer query ((c, s, i) :: rest) llm).1.confidence ≤ 3/10 := by
  by_cases hlow : s < 3/10
  · have ha : (generate_answer query ((c, s, i) :: rest) llm).1.answer
        = "I cannot confidently answer this question based on the document content." := by
      simp [generate_answer, hlow]
    rw [ha] at hp
    exact absurd hp (by decide)
  · have hc := calc_conf_notfound
      (generate_answer query ((c, s, i) :: rest) llm).1.answer c s i rest query
      hs0 hs1 hp
    have hconf := generate_answer_main_conf query c s i rest llm hlow
    rw [hconf, if_pos hp, min_eq_left hc.2]
    exact hc

/-- C3 counterexample: a negative numeric `rate` (as the model path can
deliver from parsed JSON) passes the cleaning pass untouched — the cleaned
value is neither null nor a positive number. -/
theorem C3_counterexample :
    dget (clean_extracted_data [("rate", Val.vnum (-1))]) "rate" = Val.vnum (-1) ∧
    ¬(dget (clean_extracted_data [("rate", Val.vnum (-1))]) "rate" = Val.vnull ∨
      ∃ q : ℚ, dget (clean_extracted_data [("rate", Val.vnum (-1))]) "rate"
          = Val.vnum q ∧ 0 < q) := by
  have h : dget (clean_extracted_data [("rate", Val.vnum (-1))]) "rate"
      = Val.vnum (-1) := rfl
  refine ⟨h, ?_⟩
  rintro (h0 | ⟨q, hq, hq0⟩)
  · rw [h] at h0
    exact absurd h0 (by simp)
  · rw [h] at hq
    have : (-1 : ℚ) = q := by
      simpa using hq
    rw [← this] at hq0
    exact absurd hq0 (by norm_num)

/-- No character of the list is a newline. -/
def noNL (l : List Char) : Prop := ∀ ch ∈ l, ch ≠ '\n'

theorem noNL_flattenNL (text : List Char) : noNL (flattenNL text) := by
  intro ch hch
  rcases List.mem_map.mp hch with ⟨c, _, rfl⟩
  by_cases h : c = '\n' <;> simp [h]

theorem splitPS_chars : ∀ (n : Nat) (l : List Char), l.length ≤ n →
    ∀ (acc u : List Char), u ∈ splitPS acc l → ∀ ch ∈ u, ch ∈ acc ∨ ch ∈ l := by
  intro n
  induction n with
  | zero =>
    intro l hl acc u hu ch hch
    have hnil : l = [] := List.length_eq_zero.mp (Nat.le_zero.mp hl)
    subst hnil
    simp only [splitPS, List.mem_singleton] at hu
    subst hu
    exact Or.inl (List.mem_reverse.mp hch)
  | succ n ih =>
    intro l hl acc u hu ch hch
    match l with
    | [] =>
      simp only [splitPS, List.mem_singleton] at hu
      subst hu
      exact Or.inl (List.mem_reverse.mp hch)
    | [c] =>
      simp only [splitPS, List.mem_singleton] at hu
      subst hu
      rcases List.mem_cons.mp (List.mem_reverse.mp hch) with rfl | h
      · exact Or.inr (by simp)
      · exact Or.inl h
    | c :: d :: t =>
      by_cases hc : c = '.' ∧ d = ' '
      · obtain ⟨rfl, rfl⟩ := hc
        rw [show splitPS acc ('.' :: ' ' :: t) = acc.reverse :: splitPS [] t by
          simp [splitPS]] at hu
        rcases List.mem_cons.mp hu with rfl | hu2
        · exact Or.inl (List.mem_reverse.mp hch)
        · rcases ih t (by simp at hl ⊢; omega) [] u hu2 ch hch with h | h
          · simp at h
          · exact Or.inr (by simp [h])
      · rw [show splitPS acc (c :: d :: t) = splitPS (c :: acc) (d :: t) by
          simp [splitPS, hc]] at hu
        rcases ih (d :: t) (by simp at hl ⊢; omega) (c :: acc) u hu ch hch with h | h
        · rcases List.mem_cons.mp h with rfl | h2
          · exact Or.inr (by simp)
          · exact Or.inl h2
        · exact Or.inr (List.mem_cons_of_mem c h)

theorem mem_of_mem_pstrip {ch : Char} {l : List Char} (h : ch ∈ pstrip l) :
    ch ∈ l := by
  unfold pstrip at h
  have h1 := (List.dropWhile_sublist isWS).subset
    (List.mem_reverse.mp h)
  exact (List.dropWhile_sublist isWS).subset (List.mem_reverse.mp h1)

theorem wsplitAux_chars : ∀ (l cur w : List Char), w ∈ wsplitAux cur l →
    ∀ ch ∈ w, ch ∈ cur ∨ ch ∈ l := by
  intro l
  induction l with
  | nil =>
    intro cur w hw ch hch
    by_cases hce : cur.isEmpty <;> simp only [wsplitAux, hce] at hw
    · simp [hce] at hw
    · rcases List.mem_singleton.mp (by simpa [hce] using hw) with rfl
      exact Or.inl (List.mem_reverse.mp hch)
  | cons c t ih =>
    intro cur w hw ch hch
    by_cases hws : isWS c
    · by_cases hce : cur.isEmpty
      · simp only [wsplitAux, hws, hce, if_true] at hw
        rcases ih [] w hw ch hch with h | h
        · simp at h
        · exact Or.inr (List.mem_cons_of_mem c h)
      · simp only [wsplitAux, hws, hce, if_true, if_false] at hw
        rcases List.mem_cons.mp hw with rfl | hw2
        · exact Or.inl (List.mem_reverse.mp hch)
        · rcases ih [] w hw2 ch hch with h | h
          · simp at h
          · exact Or.inr (List.mem_cons_of_mem c h)
    · simp only [wsplitAux, hws, if_false] at hw
      rcases ih (c :: cur) w hw ch hch with h | h
      · rcases List.mem_cons.mp h with rfl | h2
        · exact Or.inr (by simp)
        · exact Or.inl h2
      · exact Or.inr (List.mem_cons_of_mem c h)

theorem joinSpace_chars : ∀ (ws : List (List Char)) (ch : Char),
    ch ∈ joinSpace ws → ch = ' ' ∨ ∃ w ∈ ws, ch ∈ w := by
  intro ws
  induction ws with
  | nil => intro ch hch; simp [joinSpace] at hch
  | cons w ws2 ih =>
    intro ch hch
    cases ws2 with
    | nil => exact Or.inr ⟨w, by simp, by simpa [joinSpace] using hch⟩
    | cons w2 ws3 =>
      rw [show joinSpace (w :: w2 :: ws3) = w ++ ' ' :: joinSpace (w2 :: ws3)
        from rfl] at hch
      rcases List.mem_append.mp hch with h | h
      · exact Or.inr ⟨w, by simp, h⟩
      · rcases List.mem_cons.mp h with rfl | h2
        · exact Or.inl rfl
        · rcases ih ch h2 with h3 | ⟨w3, hw3, hcw⟩
          · exact Or.inl h3
          · exact Or.inr ⟨w3, List.mem_cons_of_mem w hw3, hcw⟩

theorem noNL_sentenceOf {u : List Char} (hu : noNL u) : noNL (sentenceOf u) := by
  intro ch hch
  rcases List.mem_append.mp hch with h | h
  · exact hu ch (mem_of_mem_pstrip h)
  · rcases List.mem_cons.mp h with rfl | h2
    · simp
    · rcases List.mem_singleton.mp h2 with rfl
      simp

theorem chunkStep_noNL (cs ov : Nat) (st : ChunkState) (u : List Char)
    (hch : ∀ c2 ∈ st.chunks, noNL c2) (hcur : noNL st.cur) (hu : noNL u) :
    (∀ c2 ∈ (chunkStep cs ov st u).chunks, noNL c2) ∧
      noNL (chunkStep cs ov st u).cur := by
  have hsent := noNL_sentenceOf hu
  unfold chunkStep
  dsimp only
  by_cases hfit : st.size + wcount (sentenceOf u) ≤ cs
  · rw [if_pos hfit]
    refine ⟨hch, ?_⟩
    intro ch hc
    rcases List.mem_append.mp hc with h | h
    · exact hcur ch h
    · exact hsent ch h
  · rw [if_neg hfit]
    constructor
    · intro c2 hc2
      by_cases hce : st.cur.isEmpty
      · rw [if_pos hce] at hc2
        exact hch c2 hc2
      · rw [if_neg hce] at hc2
        rcases List.mem_append.mp hc2 with h | h
        · exact hch c2 h
        · rcases List.mem_singleton.mp h with rfl
          intro ch hc3
          exact hcur ch (mem_of_mem_pstrip hc3)
    · intro ch hc
      rcases List.mem_append.mp hc with h | h
      · rcases joinSpace_chars _ ch h with rfl | ⟨w, hw, hcw⟩
        · simp
        · have hwp : w ∈ pywords st.cur := by
            by_cases hlen : (pywords st.cur).length > ov
            · rw [if_pos hlen] at hw
              exact List.mem_of_mem_drop hw
            · rwa [if_neg hlen] at hw
          rcases wsplitAux_chars st.cur [] w hwp ch hcw with h2 | h2
          · simp at h2
          · exact hcur ch h2
      · rcases List.mem_cons.mp h with rfl | h2
        · simp
        · exact hsent ch h2

theorem chunkLoop_noNL (cs ov : Nat) : ∀ (sents : List (List Char)) (st : ChunkState),
    (∀ c2 ∈ st.chunks, noNL c2) → noNL st.cur → (∀ u ∈ sents, noNL u) →
    (∀ c2 ∈ (sents.foldl (chunkStep cs ov) st).chunks, noNL c2) ∧
      noNL (sents.foldl (chunkStep cs ov) st).cur := by
  intro sents
  induction sents with
  | nil => intro st h1 h2 _; exact ⟨h1, h2⟩
  | cons u rest ih =>
    intro st h1 h2 h3
    rw [List.foldl_cons]
    have hstep := chunkStep_noNL cs ov st u h1 h2 (h3 u (by simp))
    exact ih (chunkStep cs ov st u) hstep.1 hstep.2
      fun v hv => h3 v (List.mem_cons_of_mem u hv)

/-- C10: no chunk produced by `chunk_text` contains a newline character —
the newline replacement at the top of the function flattens the
document's line structure inside every chunk. -/
theorem C10_chunks_newline_free (text : List Char) (cs ov : Nat)
    (chunk : List Char) (hc : chunk ∈ chunk_text text cs ov) :
    '\n' ∉ chunk := by
  unfold chunk_text at hc
  by_cases ht : text.isEmpty
  · rw [if_pos ht] at hc
    simp at hc
  · rw [if_neg ht] at hc
    dsimp only at hc
    have hsents : ∀ u ∈ splitPS [] (flattenNL text), noNL u := by
      intro u hu ch hch
      rcases splitPS_chars (flattenNL text).length _ le_rfl [] u hu ch hch with h | h
      · simp at h
      · exact noNL_flattenNL text ch h
    have hloop := chunkLoop_noNL cs ov (splitPS [] (flattenNL text)) ⟨[], [], 0⟩
      (by simp) (by intro ch hch; simp at hch) hsents
    have hmem := List.mem_of_mem_filter hc
    have hnn : noNL chunk := by
      by_cases hce : ((splitPS [] (flattenNL text)).foldl (chunkStep cs ov)
          ⟨[], [], 0⟩).cur.isEmpty
      · rw [if_pos hce] at hmem
        exact hloop.1 chunk hmem
      · rw [if_neg hce] at hmem
        rcases List.mem_append.mp hmem with h | h
        · exact hloop.1 chunk h
        · rcases List.mem_singleton.mp h with rfl
          intro ch hch
          exact hloop.2 ch (mem_of_mem_pstrip hch)
    exact fun hmem2 => hnn '\n' hmem2 rfl

section ConcreteEvaluation

/- The Batteries rational-number operations are `@[irreducible]`, which
blocks `decide` on concrete similarity and confidence values; restore
default reducibility inside this section so concrete inputs evaluate. -/
attribute [local semireducible] Rat.add Rat.mul Rat.inv Rat.sub

/-- C1: for the text `"BOL#: 123456789\nShipper: ABC Corp\nRate: $2,500.00"`
ingested through `clean_text` and `chunk_text` and extracted with the model
capability disabled, the regex cascade yields
`shipment_id = "123456789"`, `rate = 2500.0` and `currency = None` as the
claim states — but `shipper = None`, not `"ABC Corp"`: `chunk_text`
flattens the newlines into one chunk, and every shipper pattern requires a
newline or end-of-string right after the captured name, which the text
`"... ABC Corp Rate: ..."` no longer offers (the capture cannot cross the
`':'` before `$2,500.00`). -/
theorem C1_regex_scenario_extraction :
    dget (extract_fields scenario_store false none "doc1").1 "shipment_id"
        = Val.vstr "123456789" ∧
    dget (extract_fields scenario_store false none "doc1").1 "shipper" = Val.vnull ∧
    dget (extract_fields scenario_store false none "doc1").1 "rate" = Val.vnum 2500 ∧
    dget (extract_fields scenario_store false none "doc1").1 "currency" = Val.vnull := by
  decide

/-- C6 witness: a best match of similarity 0.1 yields the fixed response
with confidence 0.1 and no model call. -/
theorem C6_witness :
    (generate_answer "q" [("chunk", 1/10, 0)] (some "model")).1.answer
        = "I cannot confidently answer this question based on the document content." ∧
    (generate_answer "q" [("chunk", 1/10, 0)] (some "model")).1.confidence = 1/10 ∧
    (generate_answer "q" [("chunk", 1/10, 0)] (some "model")).2 = false :=
  C6_low_similarity_short_circuit "q" "chunk" (1/10) 0 [] (some "model") (by decide)

/-- C4 counterexample: against a single-chunk document, a search output
containing position `-1` (as FAISS returns when fewer than `top_k` vectors
exist) passes the `idx < len(chunks)` check and is returned as a triple
whose position `-1` is not a valid in-range index of the one-chunk
sequence — the out-of-range position is not skipped. -/
theorem C4_counterexample :
    (retrieve_relevant_chunks c4_store "q" "d" [((1 : ℚ), (-1 : ℤ))]).1
        = some [("c0", 1/2, -1)] ∧ (-1 : ℤ) < 0 := by
  constructor
  · decide
  · decide

/-- C4 witness: a well-behaved search output against the same store — the
in-range position 0 is returned with the chunk stored there. -/
theorem C4_witness :
    ∃ doc, (load_document c4_store "d").1 = some doc ∧
      (0 : ℤ) < (doc.chunks.length : ℤ) ∧ pyGet doc.chunks 0 = some "c0" :=
  C4_positions_bounded c4_store "q" "d" [((1 : ℚ), (0 : ℤ))] [("c0", 1/2, 0)]
    (by decide) ("c0", 1/2, 0) (by decide)

/-- C2 counterexample: the text `"Hello"` (already clean) has fewer than
500 words, yet the single chunk returned is `"Hello."` — the join
re-appends `". "` after the last sentence — so the chunk is not the
cleaned text itself as the spec claims. -/
theorem C2_counterexample :
    chunk_text "Hello".data 500 100 = ["Hello.".data] ∧
    clean_text "Hello".data = "Hello".data ∧
    chunk_text "Hello".data 500 100 ≠ [clean_text "Hello".data] := by
  refine ⟨by decide, by decide, ?_⟩
  intro h
  have : ("Hello.".data : List Char) = clean_text "Hello".data := by
    have h2 : chunk_text "Hello".data 500 100 = ["Hello.".data] := by decide
    rw [h2] at h
    exact List.singleton_injective h
  rw [show clean_text "Hello".data = "Hello".data from by decide] at this
  exact absurd this (by decide)

/-- C2 witness: the amended single-chunk statement applied to the
nonempty, short text `"Hello"`. -/
theorem C2_witness :
    "Hello".data ≠ [] ∧ wcount "Hello".data < 500 ∧
    chunk_text "Hello".data 500 100
      = [pstrip (((splitPS [] (flattenNL "Hello".data)).map sentenceOf).flatten)] :=
  ⟨by decide, by decide,
   chunk_text_single_chunk "Hello".data (by decide) (by decide)⟩

/-- C5 witness: with the model capability absent and a query sharing no
keyword with the sole chunk, the fallback answer is
"Not found in document." and the confidence equals
0.3 · composite, which is at most 0.3. -/
theorem C5_witness :
    hasNotFound (generate_answer "zzzz" [("abc", 1/2, 0)] none).1.answer = true ∧
    (generate_answer "zzzz" [("abc", 1/2, 0)] none).1.confidence
      = (3/10) * composite_confidence
          (generate_answer "zzzz" [("abc", 1/2, 0)] none).1.answer
          [("abc", 1/2, 0)] ∧
    (generate_answer "zzzz" [("abc", 1/2, 0)] none).1.confidence ≤ 3/10 :=
  ⟨by decide,
   (C5_notfound_reduction_once "zzzz" "abc" (1/2) 0 [] none (by decide) (by decide)
     (by decide)).1,
   (C5_notfound_reduction_once "zzzz" "abc" (1/2) 0 [] none (by decide) (by decide)
     (by decide)).2⟩

/-- C10 witness: the chunker applied to `"a\nb"` yields the chunk
`"a b."`, and the no-newline theorem applies to it. -/
theorem C10_witness :
    "a b.".data ∈ chunk_text "a\nb".data 500 100 ∧ '\n' ∉ "a b.".data :=
  ⟨by decide,
   C10_chunks_newline_free "a\nb".data 500 100 "a b.".data (by decide)⟩

end ConcreteEvaluation

end UltraShip
